import Mathlib

/-!
# A verification model of the josekit JOSE core

This file gives a shallow embedding, in Lean, of the token-processing core of
the `josekit` Rust library (JWK data model, JWK sets, the unsecured JWT path,
the claim-set validator, and the RSA-PSS key factories), together with theorems
checking the library's specification against the code.

Modelling conventions:
* `serde_json` values are modelled by `Json`; numbers are modelled as
  integers (the claims under study never depend on float behaviour), strings
  and map keys are modelled as their UTF-8 byte sequences (`JStr`), and
  `serde_json::Map` (with insertion order preserved) is modelled as an
  association list (`JMap`).
* Byte strings (`Vec<u8>`, `&[u8]`, `&str`) are modelled as `List Nat`, each
  element standing for one byte.
* Rust `Result<T, JoseError>` is modelled as `Except JoseError T`.  The
  `anyhow` error funnel used throughout the source (`bail!` errors are
  downcast and, if not already a `JoseError`, wrapped in
  `JoseError::InvalidJwtFormat` or `InvalidKeyFormat`) is applied directly at
  each error site.
* A Rust panic (`unreachable!`) in an accessor is modelled by the accessor
  returning `none` at top level.
-/

set_option maxHeartbeats 1000000

namespace Josekit

/-- A byte string: the model of Rust `Vec<u8>` / `&str` contents. -/
abbrev JStr := List Nat

/-- JSON values as held by `serde_json::Value`.  Numbers are modelled as
integers; strings carry their UTF-8 bytes; objects are insertion-ordered
association lists (the `preserve_order` feature of `serde_json`). -/
inductive Json where
  | null : Json
  | bool (b : Bool) : Json
  | num (n : Int) : Json
  | str (s : JStr) : Json
  | arr (elems : List Json) : Json
  | obj (entries : List (JStr × Json)) : Json

/-- The model of `serde_json::Map<String, Value>`. -/
abbrev JMap := List (JStr × Json)

mutual

/-- Structural equality test on `Json` (value equality of `serde_json::Value`). -/
def beqJson : Json → Json → Bool
  | .null, .null => true
  | .bool a, .bool b => a == b
  | .num a, .num b => a == b
  | .str a, .str b => a == b
  | .arr a, .arr b => beqJsonList a b
  | .obj a, .obj b => beqJsonEntries a b
  | _, _ => false

def beqJsonList : List Json → List Json → Bool
  | [], [] => true
  | a :: as2, b :: bs2 => beqJson a b && beqJsonList as2 bs2
  | _, _ => false

def beqJsonEntries : List (JStr × Json) → List (JStr × Json) → Bool
  | [], [] => true
  | (ka, va) :: as2, (kb, vb) :: bs2 =>
    ka == kb && beqJson va vb && beqJsonEntries as2 bs2
  | _, _ => false

end

mutual

theorem beqJson_iff : ∀ a b : Json, beqJson a b = true ↔ a = b
  | .null, b => by cases b <;> simp [beqJson]
  | .bool x, b => by cases b <;> simp [beqJson]
  | .num x, b => by cases b <;> simp [beqJson]
  | .str x, b => by cases b <;> simp [beqJson]
  | .arr xs, b => by
    cases b <;> simp [beqJson]
    exact beqJsonList_iff xs _
  | .obj xs, b => by
    cases b <;> simp [beqJson]
    exact beqJsonEntries_iff xs _

theorem beqJsonList_iff : ∀ a b : List Json, beqJsonList a b = true ↔ a = b
  | [], b => by cases b <;> simp [beqJsonList]
  | x :: xs, b => by
    cases b with
    | nil => simp [beqJsonList]
    | cons y ys =>
      simp only [beqJsonList, Bool.and_eq_true, List.cons.injEq]
      rw [beqJson_iff x y, beqJsonList_iff xs ys]

theorem beqJsonEntries_iff :
    ∀ a b : List (JStr × Json), beqJsonEntries a b = true ↔ a = b
  | [], b => by cases b <;> simp [beqJsonEntries]
  | (kx, vx) :: xs, b => by
    cases b with
    | nil => simp [beqJsonEntries]
    | cons y ys =>
      obtain ⟨ky, vy⟩ := y
      simp only [beqJsonEntries, Bool.and_eq_true, List.cons.injEq, Prod.mk.injEq,
        beq_iff_eq]
      rw [beqJson_iff vx vy, beqJsonEntries_iff xs ys]

end

instance : DecidableEq Json := fun a b =>
  decidable_of_iff (beqJson a b = true) (beqJson_iff a b)

/-- `Map::get`: the value of the first (only, for well-formed maps) entry
holding the key. -/
def mapGet (m : JMap) (k : JStr) : Option Json :=
  match m with
  | [] => none
  | (k2, v) :: rest => if k2 = k then some v else mapGet rest k

/-- `Map::insert` with the `preserve_order` feature: an existing key keeps its
position and gets the new value, a fresh key is appended at the end. -/
def mapInsert (m : JMap) (k : JStr) (v : Json) : JMap :=
  match m with
  | [] => [(k, v)]
  | (k2, v2) :: rest =>
    if k2 = k then (k2, v) :: rest else (k2, v2) :: mapInsert rest k v

/-- `Map::remove`: drop the entry holding the key (all entries, which for
maps with unique keys coincides with removing the one entry). -/
def mapRemove (m : JMap) (k : JStr) : JMap :=
  m.filter (fun e => decide (e.1 ≠ k))

/-- The keys of a map, in order. -/
def mapKeys (m : JMap) : List JStr := m.map Prod.fst

theorem mapGet_eq_some_mem {m : JMap} {k : JStr} {v : Json}
    (h : mapGet m k = some v) : (k, v) ∈ m := by
  induction m with
  | nil => simp [mapGet] at h
  | cons e rest ih =>
    obtain ⟨k2, v2⟩ := e
    by_cases hk : k2 = k
    · subst hk
      simp [mapGet] at h
      simp [h]
    · simp [mapGet, hk] at h
      exact List.mem_cons_of_mem _ (ih h)

theorem mapGet_mapInsert_self (m : JMap) (k : JStr) (v : Json) :
    mapGet (mapInsert m k v) k = some v := by
  induction m with
  | nil => simp [mapInsert, mapGet]
  | cons e rest ih =>
    obtain ⟨k2, v2⟩ := e
    by_cases hk : k2 = k
    · subst hk; simp [mapInsert, mapGet]
    · simp [mapInsert, mapGet, hk, ih]

theorem mapGet_mapInsert_ne (m : JMap) (k k2 : JStr) (v : Json) (hne : k ≠ k2) :
    mapGet (mapInsert m k v) k2 = mapGet m k2 := by
  induction m with
  | nil => simp [mapInsert, mapGet, hne]
  | cons e rest ih =>
    obtain ⟨k3, v3⟩ := e
    by_cases hk : k3 = k
    · subst hk; simp [mapInsert, mapGet, hne]
    · simp [mapInsert, mapGet, hk, ih]

theorem mapGet_mapRemove_self (m : JMap) (k : JStr) :
    mapGet (mapRemove m k) k = none := by
  induction m with
  | nil => simp [mapRemove, mapGet]
  | cons e rest ih =>
    obtain ⟨k2, v2⟩ := e
    by_cases hk : k2 = k
    · subst hk; simpa [mapRemove, mapGet] using ih
    · simp [mapRemove, mapGet, hk] at ih ⊢
      exact ih

theorem mapGet_mapRemove_ne (m : JMap) (k k2 : JStr) (hne : k2 ≠ k) :
    mapGet (mapRemove m k) k2 = mapGet m k2 := by
  induction m with
  | nil => simp [mapRemove, mapGet]
  | cons e rest ih =>
    obtain ⟨k3, v3⟩ := e
    by_cases hk : k3 = k
    · subst hk
      simp [mapRemove, mapGet, Ne.symm hne] at ih ⊢
      exact ih
    · by_cases hk2 : k3 = k2
      · subst hk2; simp [mapRemove, mapGet, hk]
      · simp [mapRemove, mapGet, hk, hk2] at ih ⊢
        exact ih

theorem mem_mapInsert_of_mem {m : JMap} {k k2 : JStr} {v v2 : Json}
    (h : (k2, v2) ∈ mapInsert m k v) :
    (k2, v2) ∈ m ∨ (k2 = k ∧ v2 = v) := by
  induction m with
  | nil => simp [mapInsert] at h; simp [h]
  | cons e rest ih =>
    obtain ⟨k3, v3⟩ := e
    by_cases hk : k3 = k
    · subst hk
      simp [mapInsert] at h
      rcases h with ⟨h1, h2⟩ | h
      · exact Or.inr ⟨h1, h2⟩
      · exact Or.inl (List.mem_cons_of_mem _ h)
    · simp [mapInsert, hk] at h
      rcases h with ⟨h1, h2⟩ | h
      · subst h1; subst h2; exact Or.inl (by simp)
      · rcases ih h with h | h
        · exact Or.inl (List.mem_cons_of_mem _ h)
        · exact Or.inr h

/-! ### Registered parameter names and other string constants (ASCII bytes) -/

/-- ASCII bytes of `"alg"`. -/
def kAlg : JStr := [97, 108, 103]

/-- ASCII bytes of `"kid"`. -/
def kKid : JStr := [107, 105, 100]

/-- ASCII bytes of `"kty"`. -/
def kKty : JStr := [107, 116, 121]

/-- ASCII bytes of `"use"`. -/
def kUse : JStr := [117, 115, 101]

/-- ASCII bytes of `"jku"`. -/
def kJku : JStr := [106, 107, 117]

/-- ASCII bytes of `"x5u"`. -/
def kX5u : JStr := [120, 53, 117]

/-- ASCII bytes of `"typ"`. -/
def kTyp : JStr := [116, 121, 112]

/-- ASCII bytes of `"cty"`. -/
def kCty : JStr := [99, 116, 121]

/-- ASCII bytes of `"key_ops"`. -/
def kKeyOps : JStr := [107, 101, 121, 95, 111, 112, 115]

/-- ASCII bytes of `"x5c"`. -/
def kX5c : JStr := [120, 53, 99]

/-- ASCII bytes of `"x5t"`. -/
def kX5t : JStr := [120, 53, 116]

/-- ASCII bytes of `"x5t#S256"`. -/
def kX5tS256 : JStr := [120, 53, 116, 35, 83, 50, 53, 54]

/-- ASCII bytes of `"crit"`. -/
def kCrit : JStr := [99, 114, 105, 116]

/-- ASCII bytes of `"keys"`. -/
def kKeys : JStr := [107, 101, 121, 115]

/-- ASCII bytes of `"exp"`. -/
def kExp : JStr := [101, 120, 112]

/-- ASCII bytes of `"nbf"`. -/
def kNbf : JStr := [110, 98, 102]

/-- ASCII bytes of `"iat"`. -/
def kIat : JStr := [105, 97, 116]

/-- ASCII bytes of `"iss"`. -/
def kIss : JStr := [105, 115, 115]

/-- ASCII bytes of `"sub"`. -/
def kSub : JStr := [115, 117, 98]

/-- ASCII bytes of `"aud"`. -/
def kAud : JStr := [97, 117, 100]

/-- ASCII bytes of `"jti"`. -/
def kJti : JStr := [106, 116, 105]

/-- ASCII bytes of `"none"`. -/
def sNone : JStr := [110, 111, 110, 101]

/-- ASCII bytes of the PEM label `"PRIVATE KEY"`. -/
def sPrivateKey : JStr := [80, 82, 73, 86, 65, 84, 69, 32, 75, 69, 89]

/-- ASCII bytes of the PEM label `"RSA-PSS PRIVATE KEY"`. -/
def sRsaPssPrivateKey : JStr :=
  [82, 83, 65, 45, 80, 83, 83, 32, 80, 82, 73, 86, 65, 84, 69, 32, 75, 69, 89]

/-- ASCII bytes of the PEM label `"RSA PRIVATE KEY"`. -/
def sRsaPrivateKey : JStr :=
  [82, 83, 65, 32, 80, 82, 73, 86, 65, 84, 69, 32, 75, 69, 89]

/-- ASCII bytes of the PEM label `"PUBLIC KEY"`. -/
def sPublicKey : JStr := [80, 85, 66, 76, 73, 67, 32, 75, 69, 89]

/-- ASCII bytes of the PEM label `"RSA-PSS PUBLIC KEY"`. -/
def sRsaPssPublicKey : JStr :=
  [82, 83, 65, 45, 80, 83, 83, 32, 80, 85, 66, 76, 73, 67, 32, 75, 69, 89]

/-- ASCII bytes of the PEM label `"RSA PUBLIC KEY"`. -/
def sRsaPublicKey : JStr :=
  [82, 83, 65, 32, 80, 85, 66, 76, 73, 67, 32, 75, 69, 89]

/-- ASCII bytes of `"RSA"`. -/
def sRSA : JStr := [82, 83, 65]

/-- ASCII bytes of `"sig"`. -/
def sSig : JStr := [115, 105, 103]

/-- ASCII bytes of `"n"`, `"e"`, `"d"`, `"p"`, `"q"`, `"dp"`, `"dq"`, `"qi"`. -/
def kN : JStr := [110]

def kE : JStr := [101]

def kD : JStr := [100]

def kP : JStr := [112]

def kQ : JStr := [113]

def kDp : JStr := [100, 112]

def kDq : JStr := [100, 113]

def kQi : JStr := [113, 105]

/-! ### Base64URL (no padding) codec

Model of the `base64` crate with `base64::URL_SAFE_NO_PAD`, as used by the
source (`base64::encode_config`/`decode_config`). -/

/-- The character (byte) of a six-bit group, URL-safe alphabet. -/
def b64Char (s : Nat) : Nat :=
  if s < 26 then 65 + s
  else if s < 52 then 97 + (s - 26)
  else if s < 62 then 48 + (s - 52)
  else if s = 62 then 45
  else 95

/-- The six-bit value of an alphabet byte; `none` for a byte outside the
URL-safe alphabet. -/
def b64Val (c : Nat) : Option Nat :=
  if 65 ≤ c ∧ c ≤ 90 then some (c - 65)
  else if 97 ≤ c ∧ c ≤ 122 then some (c - 97 + 26)
  else if 48 ≤ c ∧ c ≤ 57 then some (c - 48 + 52)
  else if c = 45 then some 62
  else if c = 95 then some 63
  else none

/-- Base64URL encoding without padding: three input bytes map to four
alphabet bytes, a final remainder of one or two bytes maps to two or three. -/
def b64Encode : List Nat → List Nat
  | [] => []
  | [b0] => [b64Char (b0 / 4), b64Char (b0 % 4 * 16)]
  | [b0, b1] =>
    [b64Char (b0 / 4), b64Char (b0 % 4 * 16 + b1 / 16), b64Char (b1 % 16 * 4)]
  | b0 :: b1 :: b2 :: rest =>
    b64Char (b0 / 4) :: b64Char (b0 % 4 * 16 + b1 / 16) ::
      b64Char (b1 % 16 * 4 + b2 / 64) :: b64Char (b2 % 64) :: b64Encode rest

/-- Base64URL decoding without padding.  Fails on a byte outside the alphabet
and on input length ≡ 1 (mod 4); trailing bits of a partial final group are
discarded (the crate's non-strict decode). -/
def b64Decode : List Nat → Option (List Nat)
  | [] => some []
  | [_] => none
  | [c0, c1] => do
    let s0 ← b64Val c0
    let s1 ← b64Val c1
    some [s0 * 4 + s1 / 16]
  | [c0, c1, c2] => do
    let s0 ← b64Val c0
    let s1 ← b64Val c1
    let s2 ← b64Val c2
    some [s0 * 4 + s1 / 16, s1 % 16 * 16 + s2 / 4]
  | c0 :: c1 :: c2 :: c3 :: rest => do
    let s0 ← b64Val c0
    let s1 ← b64Val c1
    let s2 ← b64Val c2
    let s3 ← b64Val c3
    let tail ← b64Decode rest
    some ((s0 * 4 + s1 / 16) :: (s1 % 16 * 16 + s2 / 4) :: (s2 % 4 * 64 + s3) :: tail)

theorem b64Val_b64Char {s : Nat} (h : s < 64) : b64Val (b64Char s) = some s := by
  interval_cases s <;> decide

theorem b64Char_ne_dot {s : Nat} (h : s < 64) : b64Char s ≠ 46 := by
  interval_cases s <;> decide

theorem b64Decode_b64Encode :
    ∀ bs : List Nat, (∀ b ∈ bs, b < 256) → b64Decode (b64Encode bs) = some bs
  | [], _ => by simp [b64Encode, b64Decode]
  | [b0], h => by
    have h0 : b0 < 256 := h b0 (by simp)
    have e0 : b0 / 4 < 64 := by omega
    have e1 : b0 % 4 * 16 < 64 := by omega
    simp [b64Encode, b64Decode, b64Val_b64Char e0, b64Val_b64Char e1]
    omega
  | [b0, b1], h => by
    have h0 : b0 < 256 := h b0 (by simp)
    have h1 : b1 < 256 := h b1 (by simp)
    have e0 : b0 / 4 < 64 := by omega
    have e1 : b0 % 4 * 16 + b1 / 16 < 64 := by omega
    have e2 : b1 % 16 * 4 < 64 := by omega
    simp [b64Encode, b64Decode, b64Val_b64Char e0, b64Val_b64Char e1,
      b64Val_b64Char e2]
    constructor <;> omega
  | b0 :: b1 :: b2 :: rest, h => by
    have h0 : b0 < 256 := h b0 (by simp)
    have h1 : b1 < 256 := h b1 (by simp)
    have h2 : b2 < 256 := h b2 (by simp)
    have e0 : b0 / 4 < 64 := by omega
    have e1 : b0 % 4 * 16 + b1 / 16 < 64 := by omega
    have e2 : b1 % 16 * 4 + b2 / 64 < 64 := by omega
    have e3 : b2 % 64 < 64 := by omega
    have ih := b64Decode_b64Encode rest (fun b hb => h b (by simp [hb]))
    simp [b64Encode, b64Decode, b64Val_b64Char e0, b64Val_b64Char e1,
      b64Val_b64Char e2, b64Val_b64Char e3, ih]
    omega

theorem b64Encode_no_dot :
    ∀ bs : List Nat, (∀ b ∈ bs, b < 256) → ∀ c ∈ b64Encode bs, c ≠ 46
  | [], _ => by simp [b64Encode]
  | [b0], h => by
    have h0 : b0 < 256 := h b0 (by simp)
    simp only [b64Encode, List.mem_cons, List.not_mem_nil, or_false]
    rintro c (rfl | rfl)
    · exact b64Char_ne_dot (by omega)
    · exact b64Char_ne_dot (by omega)
  | [b0, b1], h => by
    have h0 : b0 < 256 := h b0 (by simp)
    have h1 : b1 < 256 := h b1 (by simp)
    simp only [b64Encode, List.mem_cons, List.not_mem_nil, or_false]
    rintro c (rfl | rfl | rfl)
    · exact b64Char_ne_dot (by omega)
    · exact b64Char_ne_dot (by omega)
    · exact b64Char_ne_dot (by omega)
  | b0 :: b1 :: b2 :: rest, h => by
    have h0 : b0 < 256 := h b0 (by simp)
    have h1 : b1 < 256 := h b1 (by simp)
    have h2 : b2 < 256 := h b2 (by simp)
    have ih := b64Encode_no_dot rest (fun b hb => h b (by simp [hb]))
    simp only [b64Encode, List.mem_cons]
    rintro c (rfl | rfl | rfl | rfl | hc)
    · exact b64Char_ne_dot (by omega)
    · exact b64Char_ne_dot (by omega)
    · exact b64Char_ne_dot (by omega)
    · exact b64Char_ne_dot (by omega)
    · exact ih c hc

/-! ### Splitting on a delimiter byte

Model of Rust `str::split(ch)`: splitting the empty string yields one empty
part, and a trailing delimiter yields a trailing empty part. -/

/-- Split a byte string on a delimiter byte, Rust `split` semantics. -/
def splitByte (d : Nat) : List Nat → List (List Nat)
  | [] => [[]]
  | b :: rest =>
    if b = d then [] :: splitByte d rest
    else
      match splitByte d rest with
      | [] => [[b]]
      | s :: ss => (b :: s) :: ss

theorem splitByte_ne_nil (d : Nat) : ∀ bs : List Nat, splitByte d bs ≠ [] := by
  intro bs
  induction bs with
  | nil => simp [splitByte]
  | cons b rest ih =>
    by_cases hb : b = d
    · simp [splitByte, hb]
    · simp only [splitByte, hb, if_false]
      cases hs : splitByte d rest with
      | nil => simp
      | cons s ss => simp

theorem splitByte_append_delim (d : Nat) :
    ∀ xs ys : List Nat, (∀ b ∈ xs, b ≠ d) →
      splitByte d (xs ++ d :: ys) = xs :: splitByte d ys := by
  intro xs
  induction xs with
  | nil => intro ys _; simp [splitByte]
  | cons x xs2 ih =>
    intro ys hno
    have hx : x ≠ d := hno x (by simp)
    have ih2 := ih ys (fun b hb => hno b (by simp [hb]))
    simp only [List.cons_append, splitByte, hx, if_false, List.append_eq, ih2]

/-! ### JSON serialization

Model of `serde_json::to_vec` on a `Value`: compact output, object keys in
insertion order, strings escaped exactly as the crate does (`\"`, `\\`,
`\b`, `\t`, `\n`, `\f`, `\r`, and `\u00XX` with lowercase hex for the other
control bytes). -/

/-- Lowercase hex digit byte of a value `< 16`. -/
def hexDigit (n : Nat) : Nat := if n < 10 then 48 + n else 87 + n

/-- The escape sequence emitted for one string byte. -/
def escByte (b : Nat) : List Nat :=
  if b = 34 then [92, 34]
  else if b = 92 then [92, 92]
  else if b = 8 then [92, 98]
  else if b = 9 then [92, 116]
  else if b = 10 then [92, 110]
  else if b = 12 then [92, 102]
  else if b = 13 then [92, 114]
  else if b < 32 then [92, 117, 48, 48, hexDigit (b / 16), hexDigit (b % 16)]
  else [b]

/-- Escape every byte of a string body. -/
def escBytes : List Nat → List Nat
  | [] => []
  | b :: rest => escByte b ++ escBytes rest

/-- A serialized JSON string: quote, escaped body, quote. -/
def serStr (s : JStr) : List Nat := 34 :: (escBytes s ++ [34])

/-- Decimal digits (ASCII, most significant first) of a natural number. -/
def natDec (n : Nat) : List Nat :=
  if h : n < 10 then [48 + n]
  else natDec (n / 10) ++ [48 + n % 10]
  decreasing_by exact Nat.div_lt_self (by omega) (by omega)

/-- Decimal rendering of an integer, leading `-` when negative. -/
def intDec : Int → List Nat
  | .ofNat n => natDec n
  | .negSucc m => 45 :: natDec (m + 1)

mutual

/-- Serialize a JSON value to its byte sequence. -/
def serJson : Json → List Nat
  | .null => [110, 117, 108, 108]
  | .bool true => [116, 114, 117, 101]
  | .bool false => [102, 97, 108, 115, 101]
  | .num n => intDec n
  | .str s => serStr s
  | .arr es => 91 :: (serElems es ++ [93])
  | .obj ms => 123 :: (serEntries ms ++ [125])

/-- Serialize the comma-separated elements of a (non-empty) array body. -/
def serElems : List Json → List Nat
  | [] => []
  | [v] => serJson v
  | v1 :: v2 :: rest => serJson v1 ++ 44 :: serElems (v2 :: rest)

/-- Serialize the comma-separated `"key":value` entries of an object body. -/
def serEntries : List (JStr × Json) → List Nat
  | [] => []
  | [(k, v)] => serStr k ++ 58 :: serJson v
  | (k, v) :: e2 :: rest => serStr k ++ 58 :: serJson v ++ 44 :: serEntries (e2 :: rest)

end

/-! ### JSON well-formedness

The values reachable from Rust `serde_json::Value` data: every string is a
byte sequence (bytes < 256) and every object has unique keys (a
`serde_json::Map` cannot hold a key twice). -/

/-- Is a byte sequence a valid string body (all bytes < 256)? -/
def strWf (s : JStr) : Bool := s.all (fun b => b < 256)

mutual

/-- Well-formedness of a modelled `serde_json::Value`. -/
def jsonWf : Json → Bool
  | .null => true
  | .bool _ => true
  | .num _ => true
  | .str s => strWf s
  | .arr es => jsonListWf es
  | .obj ms => jsonEntriesWf ms && decide (mapKeys ms).Nodup

def jsonListWf : List Json → Bool
  | [] => true
  | v :: rest => jsonWf v && jsonListWf rest

def jsonEntriesWf : List (JStr × Json) → Bool
  | [] => true
  | (k, v) :: rest => strWf k && jsonWf v && jsonEntriesWf rest

end

/-- Well-formedness of a modelled `serde_json::Map` at top level. -/
def mapWf (m : JMap) : Bool := jsonWf (.obj m)

/-! ### JSON parsing

Model of `serde_json::from_slice` into a `Value`/`Map`: recursive-descent
over bytes.  Whitespace between tokens is skipped; unescaped control bytes in
strings are rejected; numbers must have no leading zero; float syntax
(`.`, `e`, `E` after the integer part) is rejected, matching the integer
fragment this model covers. -/

/-- Is the byte an ASCII decimal digit? -/
def isDigit (c : Nat) : Bool := 48 ≤ c && c ≤ 57

/-- Value of a hex digit byte, or `none`. -/
def hexVal (c : Nat) : Option Nat :=
  if 48 ≤ c ∧ c ≤ 57 then some (c - 48)
  else if 97 ≤ c ∧ c ≤ 102 then some (c - 87)
  else if 65 ≤ c ∧ c ≤ 70 then some (c - 55)
  else none

/-- UTF-8 bytes of a code point (surrogate handling omitted: the claims under
study only exercise `\u00XX` escapes of control bytes). -/
def utf8Enc (cp : Nat) : List Nat :=
  if cp < 128 then [cp]
  else if cp < 2048 then [192 + cp / 64, 128 + cp % 64]
  else [224 + cp / 4096, 128 + cp / 64 % 64, 128 + cp % 64]

/-- Skip JSON whitespace bytes (space, tab, LF, CR). -/
def skipWs : List Nat → List Nat
  | [] => []
  | c :: rest =>
    if c = 32 ∨ c = 9 ∨ c = 10 ∨ c = 13 then skipWs rest else c :: rest

/-- Parse a JSON string body after the opening quote; returns the decoded
bytes and the remaining input after the closing quote. -/
def parseStrBody : List Nat → Option (JStr × List Nat)
  | [] => none
  | c :: rest =>
    if c = 34 then some ([], rest)
    else if c = 92 then
      match rest with
      | [] => none
      | e :: rest2 =>
        if e = 34 ∨ e = 92 ∨ e = 47 then
          (parseStrBody rest2).map (fun p => (e :: p.1, p.2))
        else if e = 98 then (parseStrBody rest2).map (fun p => (8 :: p.1, p.2))
        else if e = 116 then (parseStrBody rest2).map (fun p => (9 :: p.1, p.2))
        else if e = 110 then (parseStrBody rest2).map (fun p => (10 :: p.1, p.2))
        else if e = 102 then (parseStrBody rest2).map (fun p => (12 :: p.1, p.2))
        else if e = 114 then (parseStrBody rest2).map (fun p => (13 :: p.1, p.2))
        else if e = 117 then
          match rest2 with
          | h1 :: h2 :: h3 :: h4 :: rest3 =>
            match hexVal h1, hexVal h2, hexVal h3, hexVal h4 with
            | some a, some b, some c2, some d =>
              (parseStrBody rest3).map
                (fun p => (utf8Enc (((a * 16 + b) * 16 + c2) * 16 + d) ++ p.1, p.2))
            | _, _, _, _ => none
          | _ => none
        else none
    else if c < 32 then none
    else (parseStrBody rest).map (fun p => (c :: p.1, p.2))
  termination_by bs => bs.length
  decreasing_by all_goals simp_arith [List.length]

/-- Take the maximal digit prefix. -/
def takeDigits : List Nat → List Nat × List Nat
  | [] => ([], [])
  | c :: rest =>
    if isDigit c then
      let p := takeDigits rest
      (c :: p.1, p.2)
    else ([], c :: rest)

/-- Accumulate decimal digit bytes into a number. -/
def digitsToNat : List Nat → Nat → Nat
  | [], acc => acc
  | c :: rest, acc => digitsToNat rest (acc * 10 + (c - 48))

/-- Does the input continue with float syntax (`.`, `e`, `E`)? -/
def floatStart : List Nat → Bool
  | 46 :: _ => true
  | 101 :: _ => true
  | 69 :: _ => true
  | _ => false

/-- Parse the digits of a number (sign already consumed).  Rejects an empty
digit sequence, a leading zero, and float syntax. -/
def parseNumTail (neg : Bool) (bs : List Nat) : Option (Json × List Nat) :=
  match takeDigits bs with
  | ([], _) => none
  | (d :: ds2, rest) =>
    if d = 48 ∧ ds2 ≠ [] then none
    else if floatStart rest then none
    else
      let n : Int := digitsToNat (d :: ds2) 0
      some (.num (if neg then -n else n), rest)

/-- Build a `serde_json::Map` from parsed entries: repeated insertion, so a
duplicate key keeps its first position and last value. -/
def entriesToMap (es : List (JStr × Json)) : JMap :=
  es.foldl (fun acc e => mapInsert acc e.1 e.2) []

mutual

/-- Parse one JSON value (fuel-indexed). -/
def parseVal : Nat → List Nat → Option (Json × List Nat)
  | 0, _ => none
  | fuel + 1, bs =>
    match skipWs bs with
    | [] => none
    | c :: rest =>
      if c = 110 then
        match rest with
        | 117 :: 108 :: 108 :: r => some (.null, r)
        | _ => none
      else if c = 116 then
        match rest with
        | 114 :: 117 :: 101 :: r => some (.bool true, r)
        | _ => none
      else if c = 102 then
        match rest with
        | 97 :: 108 :: 115 :: 101 :: r => some (.bool false, r)
        | _ => none
      else if c = 34 then
        (parseStrBody rest).map (fun p => (.str p.1, p.2))
      else if c = 91 then
        match skipWs rest with
        | [] => none
        | c2 :: r2 =>
          if c2 = 93 then some (.arr [], r2)
          else (parseElems fuel (c2 :: r2)).map (fun p => (.arr p.1, p.2))
      else if c = 123 then
        match skipWs rest with
        | [] => none
        | c2 :: r2 =>
          if c2 = 125 then some (.obj [], r2)
          else
            (parseEntries fuel (c2 :: r2)).map
              (fun p => (.obj (entriesToMap p.1), p.2))
      else if c = 45 then parseNumTail true rest
      else if isDigit c then parseNumTail false (c :: rest)
      else none

/-- Parse the elements of a non-empty array body up to the closing `]`. -/
def parseElems : Nat → List Nat → Option (List Json × List Nat)
  | 0, _ => none
  | fuel + 1, bs =>
    match parseVal fuel bs with
    | none => none
    | some (v, rest) =>
      match skipWs rest with
      | [] => none
      | c :: r =>
        if c = 44 then (parseElems fuel r).map (fun p => (v :: p.1, p.2))
        else if c = 93 then some ([v], r)
        else none

/-- Parse the entries of a non-empty object body up to the closing `}`. -/
def parseEntries : Nat → List Nat → Option (List (JStr × Json) × List Nat)
  | 0, _ => none
  | fuel + 1, bs =>
    match skipWs bs with
    | [] => none
    | c :: rest =>
      if c = 34 then
        match parseStrBody rest with
        | none => none
        | some (k, r1) =>
          match skipWs r1 with
          | [] => none
          | c2 :: r2 =>
            if c2 = 58 then
              match parseVal fuel r2 with
              | none => none
              | some (v, r3) =>
                match skipWs r3 with
                | [] => none
                | c3 :: r4 =>
                  if c3 = 44 then
                    (parseEntries fuel r4).map (fun p => ((k, v) :: p.1, p.2))
                  else if c3 = 125 then some ([(k, v)], r4)
                  else none
            else none
      else none

end

/-- Model of `serde_json::from_slice::<Value>`: parse one value and require
the rest of the input to be (whitespace-padded) empty. -/
def jsonParse (bs : List Nat) : Option Json :=
  match parseVal (bs.length + 1) bs with
  | some (v, rest) => if skipWs rest = [] then some v else none
  | none => none

/-- Model of `serde_json::from_slice::<Map<String, Value>>`: like `jsonParse`
but requiring a top-level object. -/
def jsonParseMap (bs : List Nat) : Option JMap :=
  match jsonParse bs with
  | some (.obj m) => some m
  | _ => none

/-! ### Round trip of the JSON codec -/

/-- The bytes that may legally follow a serialized value inside a larger
serialized document: nothing, a comma, or a closing bracket/brace. -/
def numBoundary : List Nat → Bool
  | [] => true
  | c :: _ => c == 44 || c == 93 || c == 125

theorem skipWs_cons {c : Nat} (r : List Nat)
    (h : ¬(c = 32 ∨ c = 9 ∨ c = 10 ∨ c = 13)) : skipWs (c :: r) = c :: r := by
  simp [skipWs, h]

theorem natDec_ne_nil (n : Nat) : natDec n ≠ [] := by
  rw [natDec]
  split <;> simp

theorem natDec_digits (n : Nat) : ∀ c ∈ natDec n, 48 ≤ c ∧ c ≤ 57 := by
  induction n using Nat.strong_induction_on with
  | _ n ih =>
    by_cases h : n < 10
    · rw [natDec, dif_pos h]
      intro c hc
      simp at hc
      omega
    · rw [natDec, dif_neg h]
      intro c hc
      rcases List.mem_append.mp hc with hc2 | hc2
      · exact ih (n / 10) (Nat.div_lt_self (by omega) (by omega)) c hc2
      · simp at hc2
        omega

theorem natDec_head_48 (n : Nat) :
    ∀ l, natDec n = 48 :: l → n = 0 ∧ l = [] := by
  induction n using Nat.strong_induction_on with
  | _ n ih =>
    intro l h
    by_cases h10 : n < 10
    · rw [natDec, dif_pos h10] at h
      simp at h
      exact ⟨by omega, h.2⟩
    · rw [natDec, dif_neg h10] at h
      cases hnd : natDec (n / 10) with
      | nil => exact absurd hnd (natDec_ne_nil _)
      | cons c cs =>
        rw [hnd] at h
        simp at h
        obtain ⟨h1, _⟩ := h
        have := ih (n / 10) (Nat.div_lt_self (by omega) (by omega)) cs
          (by rw [hnd, h1])
        omega

theorem digitsToNat_append (acc : Nat) (xs ys : List Nat) :
    digitsToNat (xs ++ ys) acc = digitsToNat ys (digitsToNat xs acc) := by
  induction xs generalizing acc with
  | nil => simp [digitsToNat]
  | cons x xs2 ih => simp [digitsToNat, ih]

theorem digitsToNat_natDec (acc n : Nat) :
    digitsToNat (natDec n) acc = acc * 10 ^ (natDec n).length + n := by
  induction n using Nat.strong_induction_on generalizing acc with
  | _ n ih =>
    by_cases h : n < 10
    · rw [natDec, dif_pos h, digitsToNat, digitsToNat, List.length_singleton,
        pow_one]
      omega
    · rw [natDec, dif_neg h, digitsToNat_append,
        ih (n / 10) (Nat.div_lt_self (by omega) (by omega)) acc,
        digitsToNat, digitsToNat, List.length_append, List.length_singleton,
        pow_succ]
      generalize (10 : Nat) ^ (natDec (n / 10)).length = p
      have hn : n / 10 * 10 + n % 10 = n := by omega
      have hs : 48 + n % 10 - 48 = n % 10 := by omega
      rw [hs]
      calc (acc * p + n / 10) * 10 + n % 10
          = acc * (p * 10) + (n / 10 * 10 + n % 10) := by ring
        _ = acc * (p * 10) + n := by rw [hn]

theorem takeDigits_append (xs rest : List Nat)
    (hx : ∀ c ∈ xs, isDigit c = true)
    (hr : rest = [] ∨ ∃ c r, rest = c :: r ∧ isDigit c = false) :
    takeDigits (xs ++ rest) = (xs, rest) := by
  induction xs with
  | nil =>
    rcases hr with rfl | ⟨c, r, rfl, hc⟩
    · simp [takeDigits]
    · simp [takeDigits, hc]
  | cons x xs2 ih =>
    have hx0 : isDigit x = true := hx x (by simp)
    have ih2 := ih (fun c hc => hx c (by simp [hc]))
    simp [takeDigits, hx0, ih2]

theorem parseNumTail_natDec (neg : Bool) (n : Nat) (rest : List Nat)
    (hrest : numBoundary rest = true) :
    parseNumTail neg (natDec n ++ rest)
      = some (.num (if neg then -(n : Int) else (n : Int)), rest) := by
  have hbound : rest = [] ∨ ∃ c r, rest = c :: r ∧ isDigit c = false := by
    cases rest with
    | nil => exact Or.inl rfl
    | cons c r =>
      refine Or.inr ⟨c, r, rfl, ?_⟩
      simp [numBoundary] at hrest
      rcases hrest with (rfl | rfl) | rfl <;> rfl
  have hfs : floatStart rest = false := by
    cases rest with
    | nil => rfl
    | cons c r =>
      simp [numBoundary] at hrest
      rcases hrest with (rfl | rfl) | rfl <;> rfl
  have htd := takeDigits_append (natDec n) rest
    (fun c hc => by
      have := natDec_digits n c hc
      simp [isDigit]
      omega)
    hbound
  rw [parseNumTail, htd]
  cases hnd : natDec n with
  | nil => exact absurd hnd (natDec_ne_nil _)
  | cons d ds =>
    have hlz : ¬(d = 48 ∧ ds ≠ []) := by
      rintro ⟨rfl, hne⟩
      exact hne (natDec_head_48 n ds hnd).2
    have hval : digitsToNat (d :: ds) 0 = n := by
      rw [← hnd, digitsToNat_natDec]
      simp
    simp [hlz, hfs, hval]

theorem intDec_ne_nil (n : Int) : intDec n ≠ [] := by
  cases n with
  | ofNat m => simpa [intDec] using natDec_ne_nil m
  | negSucc m => simp [intDec]

theorem hexVal_hexDigit {n : Nat} (h : n < 16) : hexVal (hexDigit n) = some n := by
  interval_cases n <;> decide

theorem parseStrBody_escBytes (s : JStr) (h : ∀ b ∈ s, b < 256) (rest : List Nat) :
    parseStrBody (escBytes s ++ 34 :: rest) = some (s, rest) := by
  induction s with
  | nil => simp [escBytes, parseStrBody.eq_def]
  | cons b s2 ih =>
    have hb : b < 256 := h b (by simp)
    have ih2 := ih (fun c hc => h c (by simp [hc]))
    rw [escBytes, List.append_assoc]
    by_cases h1 : b = 34
    · subst h1
      rw [show escByte 34 = [92, 34] from rfl, List.cons_append, List.cons_append,
        List.nil_append, parseStrBody.eq_def]
      simp [ih2]
    by_cases h2 : b = 92
    · subst h2
      rw [show escByte 92 = [92, 92] from rfl, List.cons_append, List.cons_append,
        List.nil_append, parseStrBody.eq_def]
      simp [ih2]
    by_cases h3 : b = 8
    · subst h3
      rw [show escByte 8 = [92, 98] from rfl, List.cons_append, List.cons_append,
        List.nil_append, parseStrBody.eq_def]
      simp [ih2]
    by_cases h4 : b = 9
    · subst h4
      rw [show escByte 9 = [92, 116] from rfl, List.cons_append, List.cons_append,
        List.nil_append, parseStrBody.eq_def]
      simp [ih2]
    by_cases h5 : b = 10
    · subst h5
      rw [show escByte 10 = [92, 110] from rfl, List.cons_append, List.cons_append,
        List.nil_append, parseStrBody.eq_def]
      simp [ih2]
    by_cases h6 : b = 12
    · subst h6
      rw [show escByte 12 = [92, 102] from rfl, List.cons_append, List.cons_append,
        List.nil_append, parseStrBody.eq_def]
      simp [ih2]
    by_cases h7 : b = 13
    · subst h7
      rw [show escByte 13 = [92, 114] from rfl, List.cons_append, List.cons_append,
        List.nil_append, parseStrBody.eq_def]
      simp [ih2]
    by_cases h8 : b < 32
    · have h48 : hexVal 48 = some 0 := by decide
      have hhi := hexVal_hexDigit (show b / 16 < 16 by omega)
      have hlo := hexVal_hexDigit (show b % 16 < 16 by omega)
      have hesc : escByte b
          = [92, 117, 48, 48, hexDigit (b / 16), hexDigit (b % 16)] := by
        simp only [escByte, h1, h2, h3, h4, h5, h6, h7, if_false, if_pos h8]
      rw [hesc, List.cons_append, List.cons_append, List.cons_append,
        List.cons_append, List.cons_append, List.cons_append, List.nil_append,
        parseStrBody.eq_def]
      simp [h48, hhi, hlo, ih2, utf8Enc,
        show ((0 * 16 + 0) * 16 + b / 16) * 16 + b % 16 = b by omega,
        show b / 16 * 16 + b % 16 = b by omega,
        show b < 128 by omega]
    · have hesc : escByte b = [b] := by
        simp only [escByte, h1, h2, h3, h4, h5, h6, h7, h8, if_false]
      rw [hesc, List.cons_append, List.nil_append, parseStrBody.eq_def]
      simp [h1, h2, h8, ih2]

/-- The first byte of a serialized JSON value: a value-start byte. -/
def goodHead (c : Nat) : Prop :=
  c = 110 ∨ c = 116 ∨ c = 102 ∨ c = 34 ∨ c = 91 ∨ c = 123 ∨ c = 45 ∨
    (48 ≤ c ∧ c ≤ 57)

theorem serJson_head (v : Json) : ∃ c t, serJson v = c :: t ∧ goodHead c := by
  cases v with
  | null => exact ⟨110, _, rfl, by simp [goodHead]⟩
  | bool b =>
    cases b
    · exact ⟨102, _, rfl, by simp [goodHead]⟩
    · exact ⟨116, _, rfl, by simp [goodHead]⟩
  | num n =>
    cases n with
    | ofNat m =>
      cases hnd : natDec m with
      | nil => exact absurd hnd (natDec_ne_nil m)
      | cons c cs =>
        have hd := natDec_digits m c (by rw [hnd]; simp)
        exact ⟨c, cs, by simp [serJson, intDec, hnd], by simp [goodHead]; omega⟩
    | negSucc m => exact ⟨45, _, rfl, by simp [goodHead]⟩
  | str s => exact ⟨34, _, rfl, by simp [goodHead]⟩
  | arr es => exact ⟨91, _, rfl, by simp [goodHead]⟩
  | obj ms => exact ⟨123, _, rfl, by simp [goodHead]⟩

theorem goodHead_not_ws {c : Nat} (h : goodHead c) :
    ¬(c = 32 ∨ c = 9 ∨ c = 10 ∨ c = 13) := by
  unfold goodHead at h; omega

theorem goodHead_ne_93 {c : Nat} (h : goodHead c) : c ≠ 93 := by
  unfold goodHead at h; omega

theorem goodHead_ne_125 {c : Nat} (h : goodHead c) : c ≠ 125 := by
  unfold goodHead at h; omega

theorem skipWs_serJson_append (v : Json) (rest : List Nat) :
    skipWs (serJson v ++ rest) = serJson v ++ rest := by
  obtain ⟨c, t, hct, hgc⟩ := serJson_head v
  rw [hct, List.cons_append]
  exact skipWs_cons _ (goodHead_not_ws hgc)

/-! Fuel bookkeeping for the parser. -/

mutual

/-- Fuel sufficient for `parseVal` on the serialization of a value. -/
def fuelOf : Json → Nat
  | .arr es => 1 + fuelElems es
  | .obj ms => 1 + fuelEntries ms
  | _ => 1

def fuelElems : List Json → Nat
  | [] => 0
  | v :: rest => 1 + fuelOf v + fuelElems rest

def fuelEntries : List (JStr × Json) → Nat
  | [] => 0
  | (_, v) :: rest => 1 + fuelOf v + fuelEntries rest

end

theorem fuelOf_pos (v : Json) : 1 ≤ fuelOf v := by
  cases v <;> simp [fuelOf] <;> omega

mutual

theorem fuelOf_le_length (v : Json) : fuelOf v ≤ (serJson v).length := by
  cases v with
  | null => simp [fuelOf, serJson]
  | bool b => cases b <;> simp [fuelOf, serJson]
  | num n =>
    have h1 : 1 ≤ (intDec n).length := by
      cases hn : intDec n with
      | nil => exact absurd hn (intDec_ne_nil n)
      | cons c cs => simp
    simpa [fuelOf, serJson] using h1
  | str s => simp [fuelOf, serStr, serJson]
  | arr es =>
    have := fuelElems_le_length es
    simp [fuelOf, serJson]
    omega
  | obj ms =>
    have := fuelEntries_le_length ms
    simp [fuelOf, serJson]
    omega

theorem fuelElems_le_length (es : List Json) :
    fuelElems es ≤ (serElems es).length + 1 := by
  match es with
  | [] => simp [fuelElems]
  | [v] =>
    have := fuelOf_le_length v
    simp [fuelElems, fuelOf, serElems]
    omega
  | v1 :: v2 :: rest =>
    have h1 := fuelOf_le_length v1
    have h2 := fuelElems_le_length (v2 :: rest)
    simp [fuelElems, serElems] at h2 ⊢
    omega

theorem fuelEntries_le_length (ms : List (JStr × Json)) :
    fuelEntries ms ≤ (serEntries ms).length + 1 := by
  match ms with
  | [] => simp [fuelEntries]
  | [(k, v)] =>
    have := fuelOf_le_length v
    simp [fuelEntries, fuelOf, serEntries]
    omega
  | (k, v) :: e2 :: rest =>
    have h1 := fuelOf_le_length v
    have h2 := fuelEntries_le_length (e2 :: rest)
    simp [fuelEntries, serEntries] at h2 ⊢
    omega

end

/-! `entriesToMap` on entry lists with unique keys. -/

theorem mapInsert_not_mem (m : JMap) (k : JStr) (v : Json)
    (h : k ∉ mapKeys m) : mapInsert m k v = m ++ [(k, v)] := by
  induction m with
  | nil => simp [mapInsert]
  | cons e rest ih =>
    obtain ⟨k2, v2⟩ := e
    simp [mapKeys] at h
    simp [mapInsert, Ne.symm h.1, ih (by simp [mapKeys, h.2])]

theorem mapKeys_cons (k : JStr) (v : Json) (rest : JMap) :
    mapKeys ((k, v) :: rest) = k :: mapKeys rest := rfl

theorem mapKeys_append (a b : JMap) :
    mapKeys (a ++ b) = mapKeys a ++ mapKeys b := by
  simp [mapKeys]

theorem foldl_mapInsert (ms : List (JStr × Json)) :
    ∀ acc : JMap, (∀ k ∈ mapKeys ms, k ∉ mapKeys acc) → (mapKeys ms).Nodup →
      ms.foldl (fun a e => mapInsert a e.1 e.2) acc = acc ++ ms := by
  induction ms with
  | nil => intro acc _ _; simp
  | cons e rest ih =>
    obtain ⟨k, v⟩ := e
    intro acc hd hn
    rw [mapKeys_cons] at hd hn
    have hk : k ∉ mapKeys acc := hd k (by simp)
    simp only [List.foldl_cons]
    rw [mapInsert_not_mem acc k v hk]
    rw [ih (acc ++ [(k, v)]) ?_ ?_]
    · simp
    · intro k2 hk2
      rw [mapKeys_append]
      simp only [List.mem_append]
      rintro (hmem | hmem)
      · exact hd k2 (List.mem_cons_of_mem _ hk2) hmem
      · have hkk : k2 = k := by simpa [mapKeys] using hmem
        subst hkk
        exact (List.nodup_cons.mp hn).1 hk2
    · exact (List.nodup_cons.mp hn).2

theorem entriesToMap_self (ms : List (JStr × Json)) (h : (mapKeys ms).Nodup) :
    entriesToMap ms = ms := by
  have := foldl_mapInsert ms [] (by simp [mapKeys]) h
  simpa [entriesToMap] using this

/-! The round-trip theorem: parsing the serialization of a well-formed value
returns the value. -/

theorem serElems_cons_decomp (v : Json) (vs : List Json) :
    ∃ u, serElems (v :: vs) = serJson v ++ u := by
  cases vs with
  | nil => exact ⟨[], by simp [serElems]⟩
  | cons v2 vs2 => exact ⟨44 :: serElems (v2 :: vs2), by simp [serElems]⟩

theorem parse_ser_all : ∀ fuel : Nat,
    (∀ v : Json, jsonWf v = true → fuelOf v ≤ fuel → ∀ rest, numBoundary rest = true →
      parseVal fuel (serJson v ++ rest) = some (v, rest)) ∧
    (∀ (v : Json) (vs : List Json), jsonListWf (v :: vs) = true →
      fuelElems (v :: vs) ≤ fuel → ∀ rest,
      parseElems fuel (serElems (v :: vs) ++ 93 :: rest) = some (v :: vs, rest)) ∧
    (∀ (k : JStr) (v : Json) (es : List (JStr × Json)),
      jsonEntriesWf ((k, v) :: es) = true → fuelEntries ((k, v) :: es) ≤ fuel →
      ∀ rest,
      parseEntries fuel (serEntries ((k, v) :: es) ++ 125 :: rest)
        = some ((k, v) :: es, rest)) := by
  intro fuel
  induction fuel using Nat.strong_induction_on with
  | _ fuel ih =>
    refine ⟨?_, ?_, ?_⟩
    · intro v hwf hfuel rest hrest
      cases fuel with
      | zero => have := fuelOf_pos v; omega
      | succ f =>
        cases v with
        | null => simp [serJson, parseVal, skipWs]
        | bool b => cases b <;> simp [serJson, parseVal, skipWs]
        | num n =>
          cases n with
          | ofNat m =>
            cases hnd : natDec m with
            | nil => exact absurd hnd (natDec_ne_nil m)
            | cons c cs =>
              have hd : 48 ≤ c ∧ c ≤ 57 := natDec_digits m c (by rw [hnd]; simp)
              have hdig : isDigit c = true := by simp [isDigit]; omega
              have hskip : skipWs (c :: (cs ++ rest)) = c :: (cs ++ rest) :=
                skipWs_cons _ (by omega)
              have hpn : parseNumTail false (c :: (cs ++ rest))
                  = some (Json.num (Int.ofNat m), rest) := by
                rw [← List.cons_append, ← hnd,
                  parseNumTail_natDec false m rest hrest]
                simp
              have hser : serJson (Json.num (Int.ofNat m)) = c :: cs := by
                simp [serJson, intDec, hnd]
              rw [hser, List.cons_append]
              simp [parseVal, hskip, hdig, hpn, show c ≠ 110 by omega,
                show c ≠ 116 by omega, show c ≠ 102 by omega,
                show c ≠ 34 by omega, show c ≠ 91 by omega,
                show c ≠ 123 by omega, show c ≠ 45 by omega]
          | negSucc m =>
            have hpn : parseNumTail true (natDec (m + 1) ++ rest)
                = some (Json.num (Int.negSucc m), rest) := by
              rw [parseNumTail_natDec true (m + 1) rest hrest]
              simp [Int.negSucc_eq]
            have hser : serJson (Json.num (Int.negSucc m))
                = 45 :: natDec (m + 1) := rfl
            rw [hser, List.cons_append]
            simp [parseVal, skipWs, hpn]
        | str s =>
          have hbytes : ∀ b ∈ s, b < 256 := by
            intro b hb
            simp [jsonWf, strWf, List.all_eq_true] at hwf
            exact hwf b hb
          have hps := parseStrBody_escBytes s hbytes rest
          simp [serJson, serStr, parseVal, skipWs, hps]
        | arr es =>
          cases es with
          | nil => simp [serJson, serElems, parseVal, skipWs]
          | cons v1 vs =>
            have hwfl : jsonListWf (v1 :: vs) = true := by
              simpa [jsonWf] using hwf
            have hfe : fuelElems (v1 :: vs) ≤ f := by
              simp [fuelOf] at hfuel
              omega
            obtain ⟨u, hu⟩ := serElems_cons_decomp v1 vs
            obtain ⟨c, t, hct, hgc⟩ := serJson_head v1
            have hshape : serElems (v1 :: vs) ++ 93 :: rest
                = c :: (t ++ (u ++ 93 :: rest)) := by
              rw [hu, hct]
              simp
            have hskip : skipWs (serElems (v1 :: vs) ++ 93 :: rest)
                = c :: (t ++ (u ++ 93 :: rest)) := by
              rw [hshape]
              exact skipWs_cons _ (goodHead_not_ws hgc)
            have hne93 := goodHead_ne_93 hgc
            have hpe : parseElems f (c :: (t ++ (u ++ 93 :: rest)))
                = some (v1 :: vs, rest) := by
              rw [← hshape]
              exact (ih f (by omega)).2.1 v1 vs hwfl hfe rest
            simp [serJson, parseVal, skipWs, hskip, hne93, hpe]
        | obj ms =>
          cases ms with
          | nil => simp [serJson, serEntries, parseVal, skipWs]
          | cons e1 es =>
            obtain ⟨k1, v1⟩ := e1
            have hwf2 := hwf
            simp only [jsonWf, Bool.and_eq_true, decide_eq_true_eq] at hwf2
            have hwfe : jsonEntriesWf ((k1, v1) :: es) = true := hwf2.1
            have hnd : (mapKeys ((k1, v1) :: es)).Nodup := hwf2.2
            have hfe : fuelEntries ((k1, v1) :: es) ≤ f := by
              simp only [fuelOf] at hfuel
              omega
            have hshape : ∃ u, serEntries ((k1, v1) :: es) = 34 :: u := by
              cases es with
              | nil =>
                exact ⟨(escBytes k1 ++ [34]) ++ 58 :: serJson v1,
                  by simp [serEntries, serStr]⟩
              | cons e2 es2 =>
                exact ⟨(escBytes k1 ++ [34])
                    ++ 58 :: (serJson v1 ++ 44 :: serEntries (e2 :: es2)),
                  by simp [serEntries, serStr]⟩
            obtain ⟨u, hu⟩ := hshape
            have hskip : skipWs (serEntries ((k1, v1) :: es) ++ 125 :: rest)
                = 34 :: (u ++ 125 :: rest) := by
              rw [hu]
              simp [skipWs]
            have hpe : parseEntries f (34 :: (u ++ 125 :: rest))
                = some ((k1, v1) :: es, rest) := by
              rw [show (34 :: (u ++ 125 :: rest) : List Nat)
                  = serEntries ((k1, v1) :: es) ++ 125 :: rest by rw [hu]; simp]
              exact (ih f (by omega)).2.2 k1 v1 es hwfe hfe rest
            simp [serJson, parseVal, skipWs, hskip, hpe,
              entriesToMap_self _ hnd]
    · intro v vs hwf hfuel rest
      cases fuel with
      | zero => simp [fuelElems] at hfuel
      | succ f =>
        have hwfv : jsonWf v = true := by
          simp [jsonListWf] at hwf
          exact hwf.1
        have hfv : fuelOf v ≤ f := by
          simp [fuelElems] at hfuel
          omega
        cases vs with
        | nil =>
          have hpv : parseVal f (serJson v ++ 93 :: rest) = some (v, 93 :: rest) :=
            (ih f (by omega)).1 v hwfv hfv (93 :: rest) (by simp [numBoundary])
          simp [serElems, parseElems, hpv, skipWs]
        | cons v2 vs2 =>
          have hwfl : jsonListWf (v2 :: vs2) = true := by
            simp [jsonListWf] at hwf ⊢
            exact ⟨hwf.2.1, hwf.2.2⟩
          have hfl : fuelElems (v2 :: vs2) ≤ f := by
            simp [fuelElems] at hfuel ⊢
            omega
          have hpv : parseVal f
              (serJson v ++ 44 :: (serElems (v2 :: vs2) ++ 93 :: rest))
              = some (v, 44 :: (serElems (v2 :: vs2) ++ 93 :: rest)) :=
            (ih f (by omega)).1 v hwfv hfv _ (by simp [numBoundary])
          have hpe : parseElems f (serElems (v2 :: vs2) ++ 93 :: rest)
              = some (v2 :: vs2, rest) :=
            (ih f (by omega)).2.1 v2 vs2 hwfl hfl rest
          simp [serElems, parseElems, hpv, hpe, skipWs]
    · intro k v es hwf hfuel rest
      cases fuel with
      | zero => simp [fuelEntries] at hfuel
      | succ f =>
        have hwfk : ∀ b ∈ k, b < 256 := by
          intro b hb
          simp [jsonEntriesWf, strWf, List.all_eq_true] at hwf
          exact hwf.1.1 b hb
        have hwfv : jsonWf v = true := by
          simp [jsonEntriesWf] at hwf
          exact hwf.1.2
        have hfv : fuelOf v ≤ f := by
          simp [fuelEntries] at hfuel
          omega
        cases es with
        | nil =>
          have hps : parseStrBody
              (escBytes k ++ 34 :: (58 :: (serJson v ++ 125 :: rest)))
              = some (k, 58 :: (serJson v ++ 125 :: rest)) :=
            parseStrBody_escBytes k hwfk _
          have hpv : parseVal f (serJson v ++ 125 :: rest)
              = some (v, 125 :: rest) :=
            (ih f (by omega)).1 v hwfv hfv _ (by simp [numBoundary])
          simp [serEntries, serStr, parseEntries, skipWs, hps, hpv]
        | cons e2 es2 =>
          obtain ⟨k2, v2⟩ := e2
          have hwfe : jsonEntriesWf ((k2, v2) :: es2) = true := by
            simp [jsonEntriesWf] at hwf ⊢
            exact ⟨hwf.2.1, hwf.2.2⟩
          have hfe : fuelEntries ((k2, v2) :: es2) ≤ f := by
            simp [fuelEntries] at hfuel ⊢
            omega
          have hps : parseStrBody
              (escBytes k ++ 34 :: (58 :: (serJson v
                ++ 44 :: (serEntries ((k2, v2) :: es2) ++ 125 :: rest))))
              = some (k, 58 :: (serJson v
                ++ 44 :: (serEntries ((k2, v2) :: es2) ++ 125 :: rest))) :=
            parseStrBody_escBytes k hwfk _
          have hpv : parseVal f (serJson v
                ++ 44 :: (serEntries ((k2, v2) :: es2) ++ 125 :: rest))
              = some (v, 44 :: (serEntries ((k2, v2) :: es2) ++ 125 :: rest)) :=
            (ih f (by omega)).1 v hwfv hfv _ (by simp [numBoundary])
          have hpe : parseEntries f (serEntries ((k2, v2) :: es2) ++ 125 :: rest)
              = some ((k2, v2) :: es2, rest) :=
            (ih f (by omega)).2.2 k2 v2 es2 hwfe hfe rest
          simp [serEntries, serStr, parseEntries, skipWs, hps, hpv, hpe]

theorem parseVal_ser (v : Json) (hwf : jsonWf v = true) (fuel : Nat)
    (hfuel : fuelOf v ≤ fuel) (rest : List Nat) (hrest : numBoundary rest = true) :
    parseVal fuel (serJson v ++ rest) = some (v, rest) :=
  (parse_ser_all fuel).1 v hwf hfuel rest hrest

/-- Parsing the serialization of a well-formed JSON value returns the value:
the model of `serde_json::from_slice(&serde_json::to_vec(v)) == v`. -/
theorem jsonParse_serJson (v : Json) (hwf : jsonWf v = true) :
    jsonParse (serJson v) = some v := by
  have hfuel : fuelOf v ≤ (serJson v).length + 1 := by
    have := fuelOf_le_length v
    omega
  have hp := parseVal_ser v hwf ((serJson v).length + 1) hfuel [] rfl
  rw [List.append_nil] at hp
  simp [jsonParse, hp, skipWs]

theorem jsonParseMap_serJson (m : JMap) (hwf : mapWf m = true) :
    jsonParseMap (serJson (.obj m)) = some m := by
  simp [jsonParseMap, jsonParse_serJson (.obj m) hwf]

theorem escByte_lt (b : Nat) (hb : b < 256) : ∀ c ∈ escByte b, c < 256 := by
  intro c hc
  unfold escByte at hc
  split at hc
  · simp at hc; omega
  all_goals split at hc
  all_goals first
    | (simp at hc; omega)
    | skip
  all_goals split at hc
  all_goals first
    | (simp at hc; omega)
    | skip
  all_goals split at hc
  all_goals first
    | (simp at hc; omega)
    | skip
  all_goals split at hc
  all_goals first
    | (simp at hc; omega)
    | skip
  all_goals split at hc
  all_goals first
    | (simp at hc; omega)
    | skip
  all_goals split at hc
  all_goals first
    | (simp at hc; omega)
    | skip
  all_goals split at hc
  all_goals
    simp [hexDigit] at hc
    rcases hc with rfl | rfl | rfl | rfl | rfl | rfl <;> try omega
  all_goals split <;> omega

theorem escBytes_lt (s : JStr) (hs : ∀ b ∈ s, b < 256) :
    ∀ c ∈ escBytes s, c < 256 := by
  induction s with
  | nil => simp [escBytes]
  | cons b s2 ih =>
    intro c hc
    simp only [escBytes, List.mem_append] at hc
    rcases hc with hc | hc
    · exact escByte_lt b (hs b (by simp)) c hc
    · exact ih (fun x hx => hs x (by simp [hx])) c hc

theorem serStr_lt (s : JStr) (hs : ∀ b ∈ s, b < 256) :
    ∀ c ∈ serStr s, c < 256 := by
  intro c hc
  simp only [serStr, List.mem_cons, List.mem_append] at hc
  rcases hc with rfl | (hc | hc)
  · omega
  · exact escBytes_lt s hs c hc
  · simp at hc; omega

theorem natDec_lt (n : Nat) : ∀ c ∈ natDec n, c < 256 := by
  intro c hc
  have := natDec_digits n c hc
  omega

theorem intDec_lt (n : Int) : ∀ c ∈ intDec n, c < 256 := by
  intro c hc
  cases n with
  | ofNat m => exact natDec_lt m c (by simpa [intDec] using hc)
  | negSucc m =>
    simp only [intDec, List.mem_cons] at hc
    rcases hc with rfl | hc
    · omega
    · exact natDec_lt (m + 1) c hc

theorem ser_bytes_all : ∀ n : Nat,
    (∀ v : Json, sizeOf v ≤ n → jsonWf v = true → ∀ b ∈ serJson v, b < 256) ∧
    (∀ es : List Json, sizeOf es ≤ n → jsonListWf es = true →
      ∀ b ∈ serElems es, b < 256) ∧
    (∀ ms : List (JStr × Json), sizeOf ms ≤ n → jsonEntriesWf ms = true →
      ∀ b ∈ serEntries ms, b < 256) := by
  intro n
  induction n using Nat.strong_induction_on with
  | _ n ih =>
    have hn : n = 0 ∨ 0 < n := by omega
    refine ⟨?_, ?_, ?_⟩
    · intro v hsz hwf b hb
      cases v with
      | null => simp [serJson] at hb; rcases hb with rfl | rfl | rfl | rfl <;> omega
      | bool bv =>
        cases bv <;> simp [serJson] at hb <;>
          first
          | (rcases hb with rfl | rfl | rfl | rfl | rfl <;> omega)
          | (rcases hb with rfl | rfl | rfl | rfl <;> omega)
      | num m => exact intDec_lt m b (by simpa [serJson] using hb)
      | str s =>
        have hs : ∀ c ∈ s, c < 256 := by
          intro c hc
          simp [jsonWf, strWf, List.all_eq_true] at hwf
          exact hwf c hc
        exact serStr_lt s hs b (by simpa [serJson] using hb)
      | arr es =>
        have hsz2 : sizeOf es ≤ n - 1 := by
          simp [Json.arr.sizeOf_spec] at hsz
          omega
        have hwf2 : jsonListWf es = true := by simpa [jsonWf] using hwf
        simp only [serJson, List.mem_cons, List.mem_append] at hb
        rcases hb with rfl | (hb | hb)
        · omega
        · exact (ih (n - 1) (by simp [Json.arr.sizeOf_spec] at hsz; omega)).2.1
            es hsz2 hwf2 b hb
        · simp at hb; omega
      | obj ms =>
        have hsz2 : sizeOf ms ≤ n - 1 := by
          simp [Json.obj.sizeOf_spec] at hsz
          omega
        have hwf2 : jsonEntriesWf ms = true := by
          simp [jsonWf] at hwf
          exact hwf.1
        simp only [serJson, List.mem_cons, List.mem_append] at hb
        rcases hb with rfl | (hb | hb)
        · omega
        · exact (ih (n - 1) (by simp [Json.obj.sizeOf_spec] at hsz; omega)).2.2
            ms hsz2 hwf2 b hb
        · simp at hb; omega
    · intro es hsz hwf b hb
      match es with
      | [] => simp [serElems] at hb
      | [v] =>
        have hwfv : jsonWf v = true := by
          simp [jsonListWf] at hwf
          exact hwf
        have hv : sizeOf v ≤ n - 1 := by
          simp [List.cons.sizeOf_spec] at hsz
          omega
        exact (ih (n - 1) (by simp [List.cons.sizeOf_spec] at hsz; omega)).1
          v hv hwfv b (by simpa [serElems] using hb)
      | v1 :: v2 :: rest =>
        have hwf1 : jsonWf v1 = true := by
          simp [jsonListWf] at hwf
          exact hwf.1
        have hwf2 : jsonListWf (v2 :: rest) = true := by
          simp [jsonListWf] at hwf ⊢
          exact ⟨hwf.2.1, hwf.2.2⟩
        have hlt : n - 1 < n := by
          simp [List.cons.sizeOf_spec] at hsz
          omega
        simp only [serElems, List.mem_append, List.mem_cons] at hb
        rcases hb with hb | (rfl | hb)
        · exact (ih (n - 1) hlt).1 v1
            (by simp [List.cons.sizeOf_spec] at hsz; omega) hwf1 b hb
        · omega
        · exact (ih (n - 1) hlt).2.1 (v2 :: rest)
            (by simp [List.cons.sizeOf_spec] at hsz ⊢; omega) hwf2 b hb
    · intro ms hsz hwf b hb
      match ms with
      | [] => simp [serEntries] at hb
      | [(k, v)] =>
        have hk : ∀ c ∈ k, c < 256 := by
          intro c hc
          simp [jsonEntriesWf, strWf, List.all_eq_true] at hwf
          exact hwf.1 c hc
        have hwfv : jsonWf v = true := by
          simp [jsonEntriesWf] at hwf
          exact hwf.2
        have hlt : n - 1 < n := by
          simp [List.cons.sizeOf_spec, Prod.mk.sizeOf_spec] at hsz
          omega
        simp only [serEntries, List.mem_append, List.mem_cons] at hb
        rcases hb with hb | (rfl | hb)
        · exact serStr_lt k hk b hb
        · omega
        · exact (ih (n - 1) hlt).1 v
            (by simp [List.cons.sizeOf_spec, Prod.mk.sizeOf_spec] at hsz; omega)
            hwfv b hb
      | (k, v) :: e2 :: rest =>
        have hk : ∀ c ∈ k, c < 256 := by
          intro c hc
          simp [jsonEntriesWf, strWf, List.all_eq_true] at hwf
          exact hwf.1.1 c hc
        have hwfv : jsonWf v = true := by
          simp [jsonEntriesWf] at hwf
          exact hwf.1.2
        have hwf2 : jsonEntriesWf (e2 :: rest) = true := by
          simp [jsonEntriesWf] at hwf ⊢
          exact ⟨hwf.2.1, hwf.2.2⟩
        have hlt : n - 1 < n := by
          simp [List.cons.sizeOf_spec, Prod.mk.sizeOf_spec] at hsz
          omega
        rw [show serEntries ((k, v) :: e2 :: rest)
            = serStr k ++ 58 :: (serJson v ++ 44 :: serEntries (e2 :: rest))
          by simp [serEntries]] at hb
        rw [List.mem_append] at hb
        rcases hb with hb | hb
        · exact serStr_lt k hk b hb
        rw [List.mem_cons] at hb
        rcases hb with rfl | hb
        · omega
        rw [List.mem_append] at hb
        rcases hb with hb | hb
        · exact (ih (n - 1) hlt).1 v
            (by simp [List.cons.sizeOf_spec, Prod.mk.sizeOf_spec] at hsz; omega)
            hwfv b hb
        rw [List.mem_cons] at hb
        rcases hb with rfl | hb
        · omega
        · exact (ih (n - 1) hlt).2.2 (e2 :: rest)
            (by simp [List.cons.sizeOf_spec, Prod.mk.sizeOf_spec] at hsz ⊢; omega)
            hwf2 b hb

/-- All bytes of a serialized well-formed JSON value are bytes (< 256). -/
theorem serJson_lt (v : Json) (hwf : jsonWf v = true) :
    ∀ b ∈ serJson v, b < 256 :=
  (ser_bytes_all (sizeOf v)).1 v (le_refl _) hwf

/-! ### The error taxonomy (`src/error.rs`, §7 of the design) -/

/-- `JoseError` without its `anyhow` cause chains, which carry only
human-readable messages. -/
inductive JoseError where
  | invalidJwtFormat
  | invalidKeyFormat
  | invalidSignature
  | invalidClaim
  | unsupportedAlgorithm
  deriving DecidableEq

/-! ### JWK (`src/jwk.rs`) -/

/-- The `Jwk` struct: four typed caches plus the raw parameter map. -/
structure Jwk where
  keyOperations : Option (List JStr)
  x509CertificateChain : Option (List (List Nat))
  x509CertificateSha1Thumbprint : Option (List Nat)
  x509CertificateSha256Thumbprint : Option (List Nat)
  params : JMap
  deriving DecidableEq

/-- Elements of a JSON array that must all be strings (`key_ops`). -/
def strListOf : List Json → Option (List JStr)
  | [] => some []
  | .str s :: rest => (strListOf rest).map (fun l => s :: l)
  | _ :: _ => none

/-- Elements of a JSON array that must all be Base64URL strings (`x5c`). -/
def b64ListOf : List Json → Option (List (List Nat))
  | [] => some []
  | .str s :: rest =>
    match b64Decode s, b64ListOf rest with
    | some d, some l => some (d :: l)
    | _, _ => none
  | _ :: _ => none

/-- The `for (key, value) in &map` loop of `Jwk::from_map` (src/jwk.rs lines
37-82), threading the four typed caches.  Note that `kty`, `use` and `alg`
fall into the final catch-all arm and are not validated. -/
def jwkFromMapLoop :
    List (JStr × Json) → Option (List JStr) → Option (List (List Nat)) →
    Option (List Nat) → Option (List Nat) →
    Except JoseError (Option (List JStr) × Option (List (List Nat)) ×
      Option (List Nat) × Option (List Nat))
  | [], ko, xc, x1, x2 => .ok (ko, xc, x1, x2)
  | (key, value) :: rest, ko, xc, x1, x2 =>
    if key = kJku ∨ key = kX5u ∨ key = kKid ∨ key = kTyp ∨ key = kCty then
      match value with
      | .str _ => jwkFromMapLoop rest ko xc x1 x2
      | _ => .error .invalidJwtFormat
    else if key = kKeyOps then
      match value with
      | .arr vals =>
        match strListOf vals with
        | some l => jwkFromMapLoop rest (some l) xc x1 x2
        | none => .error .invalidJwtFormat
      | _ => .error .invalidJwtFormat
    else if key = kX5c then
      match value with
      | .arr vals =>
        match b64ListOf vals with
        | some l => jwkFromMapLoop rest ko (some l) x1 x2
        | none => .error .invalidJwtFormat
      | _ => .error .invalidJwtFormat
    else if key = kX5t then
      match value with
      | .str v =>
        match b64Decode v with
        | some d => jwkFromMapLoop rest ko xc (some d) x2
        | none => .error .invalidJwtFormat
      | _ => .error .invalidJwtFormat
    else if key = kX5tS256 then
      match value with
      | .str v =>
        match b64Decode v with
        | some d => jwkFromMapLoop rest ko xc x1 (some d)
        | none => .error .invalidJwtFormat
      | _ => .error .invalidJwtFormat
    else jwkFromMapLoop rest ko xc x1 x2

/-- `Jwk::from_map` (src/jwk.rs lines 31-96). -/
def Jwk.fromMap (map : JMap) : Except JoseError Jwk :=
  match jwkFromMapLoop map none none none none with
  | .error e => .error e
  | .ok (ko, xc, x1, x2) => .ok ⟨ko, xc, x1, x2, map⟩

/-- `Jwk::key_type` (src/jwk.rs lines 129-134).  The top-level `none` models
the `unreachable!("The JWS kty parameter is required.")` abort taken when
`kty` is absent or not a string. -/
def Jwk.keyType (j : Jwk) : Option JStr :=
  match mapGet j.params kKty with
  | some (.str v) => some v
  | _ => none

/-- `Jwk::key_use` (src/jwk.rs lines 152-158); the top-level `none` models the
`unreachable!()` abort on a present non-string `use` value. -/
def Jwk.keyUse (j : Jwk) : Option (Option JStr) :=
  match mapGet j.params kUse with
  | some (.str v) => some (some v)
  | none => some none
  | some _ => none

/-- `Jwk::algorithm` (src/jwk.rs lines 200-206); same panic modelling. -/
def Jwk.algorithm (j : Jwk) : Option (Option JStr) :=
  match mapGet j.params kAlg with
  | some (.str v) => some (some v)
  | none => some none
  | some _ => none

/-- `Jwk::key_id` (src/jwk.rs lines 224-230); same panic modelling. -/
def Jwk.keyId (j : Jwk) : Option (Option JStr) :=
  match mapGet j.params kKid with
  | some (.str v) => some (some v)
  | none => some none
  | some _ => none

/-- `Jwk::x509_url` (src/jwk.rs lines 248-254); same panic modelling. -/
def Jwk.x509Url (j : Jwk) : Option (Option JStr) :=
  match mapGet j.params kX5u with
  | some (.str v) => some (some v)
  | none => some none
  | some _ => none

/-- `Jwk::set_parameter` (src/jwk.rs lines 337-427). -/
def Jwk.setParameter (j : Jwk) (key : JStr) (value : Option Json) :
    Except JoseError Jwk :=
  if key = kKty then
    match value with
    | some (.str _) => .ok j
    | _ => .error .invalidJwtFormat
  else if key = kUse ∨ key = kAlg ∨ key = kKid ∨ key = kX5u then
    match value with
    | some (.str s) => .ok { j with params := mapInsert j.params key (.str s) }
    | none => .ok { j with params := mapRemove j.params key }
    | some _ => .error .invalidJwtFormat
  else if key = kKeyOps then
    match value with
    | some (.arr vals) =>
      match strListOf vals with
      | some l =>
        .ok { j with keyOperations := some l,
                     params := mapInsert j.params key (.arr vals) }
      | none => .error .invalidJwtFormat
    | none =>
      .ok { j with keyOperations := none, params := mapRemove j.params key }
    | some _ => .error .invalidJwtFormat
  else if key = kX5t then
    match value with
    | some (.str s) =>
      match b64Decode s with
      | some d =>
        .ok { j with x509CertificateSha1Thumbprint := some d,
                     params := mapInsert j.params key (.str s) }
      | none => .error .invalidJwtFormat
    | none =>
      .ok { j with x509CertificateSha1Thumbprint := none,
                   params := mapRemove j.params key }
    | some _ => .error .invalidJwtFormat
  else if key = kX5tS256 then
    match value with
    | some (.str s) =>
      match b64Decode s with
      | some d =>
        .ok { j with x509CertificateSha256Thumbprint := some d,
                     params := mapInsert j.params key (.str s) }
      | none => .error .invalidJwtFormat
    | none =>
      .ok { j with x509CertificateSha256Thumbprint := none,
                   params := mapRemove j.params key }
    | some _ => .error .invalidJwtFormat
  else if key = kX5c then
    match value with
    | some (.arr vals) =>
      match b64ListOf vals with
      | some l =>
        .ok { j with x509CertificateChain := some l,
                     params := mapInsert j.params key (.arr vals) }
      | none => .error .invalidJwtFormat
    | none =>
      .ok { j with x509CertificateChain := none,
                   params := mapRemove j.params key }
    | some _ => .error .invalidJwtFormat
  else
    match value with
    | some v => .ok { j with params := mapInsert j.params key v }
    | none => .ok { j with params := mapRemove j.params key }

/-- `Jwk::parameter` (src/jwk.rs lines 433-435). -/
def Jwk.parameter (j : Jwk) (key : JStr) : Option Json :=
  mapGet j.params key

/-! ### JWK set (`src/jwk.rs` lines 455-525) -/

/-- The `JwkSet` struct: parsed keys plus the remaining top-level map. -/
structure JwkSet where
  keys : List Jwk
  params : JMap
  deriving DecidableEq

/-- The element loop of `JwkSet::from_map`: every element of `keys` must be a
JSON object accepted by `Jwk::from_map`. -/
def jwksOfList : List Json → Except JoseError (List Jwk)
  | [] => .ok []
  | .obj o :: rest =>
    match Jwk.fromMap o with
    | .error e => .error e
    | .ok j =>
      match jwksOfList rest with
      | .error e => .error e
      | .ok js => .ok (j :: js)
  | _ :: _ => .error .invalidJwtFormat

/-- `JwkSet::from_map` (src/jwk.rs lines 470-498): remove `keys` from the map,
require it to be an array of objects, parse each with `Jwk::from_map`, and
keep the remaining entries as the set's parameters. -/
def JwkSet.fromMap (map : JMap) : Except JoseError JwkSet :=
  match mapGet map kKeys with
  | some (.arr vals) =>
    match jwksOfList vals with
    | .error e => .error e
    | .ok ks => .ok ⟨ks, mapRemove map kKeys⟩
  | some _ => .error .invalidJwtFormat
  | none => .error .invalidJwtFormat

/-- Modelled from the spec: `JwkSet::get`, the lookup-by-kid used by
`decode_with_verifier_in_jwk_set` / `decode_with_decrypter_in_jwk_set`
(its definition is not among the provided sources): "Supports lookup
returning all JWKs whose `kid` equals a given value (iteration order
preserved; a key with no `kid` never matches)". -/
def JwkSet.get (s : JwkSet) (keyId : JStr) : List Jwk :=
  s.keys.filter (fun j => decide (mapGet j.params kKid = some (.str keyId)))

/-- The `for jwk in jwk_set.get(key_id) { if let Some(v) = selector(jwk)? {
return Ok(Some(v)) } }` loop of `decode_with_verifier_in_jwk_set` and
`decode_with_decrypter_in_jwk_set` (src/jwt.rs lines 309-314 and 391-396). -/
def selectFirst {α : Type} (sel : Jwk → Except JoseError (Option α)) :
    List Jwk → Except JoseError (Option α)
  | [] => .ok none
  | j :: rest =>
    match sel j with
    | .error e => .error e
    | .ok (some v) => .ok (some v)
    | .ok none => selectFirst sel rest

/-- The JWK-set-driven selector of `decode_with_verifier_in_jwk_set`: look up
the header `kid` in the set and try the caller's selector on each match. -/
def jwkSetSelect {α : Type} (s : JwkSet) (keyId : JStr)
    (sel : Jwk → Except JoseError (Option α)) : Except JoseError (Option α) :=
  selectFirst sel (s.get keyId)

/-! ### JWS header and JWT payload

`JwsHeader` and `JwtPayload` live in `src/jws/jws_header.rs` and
`src/jwt/payload.rs`, which are not among the provided sources; their
`from_map` validation is modelled from the spec (§3). -/

/-- Modelled from the spec: the per-parameter typing rule of
`JwsHeader::from_map` (§3: registered string parameters must be strings,
`crit` a sequence of strings, `x5c` a sequence of Base64 strings, `x5t` and
`x5t#S256` Base64URL strings; other parameters pass through). -/
def jwsHeaderParamOk (k : JStr) (v : Json) : Bool :=
  if k = kAlg ∨ k = kKid ∨ k = kJku ∨ k = kX5u ∨ k = kTyp ∨ k = kCty then
    match v with
    | .str _ => true
    | _ => false
  else if k = kCrit then
    match v with
    | .arr vals =>
      vals.all (fun x =>
        match x with
        | .str _ => true
        | _ => false)
    | _ => false
  else if k = kX5c then
    match v with
    | .arr vals =>
      vals.all (fun x =>
        match x with
        | .str s => (b64Decode s).isSome
        | _ => false)
    | _ => false
  else if k = kX5t ∨ k = kX5tS256 then
    match v with
    | .str s => (b64Decode s).isSome
    | _ => false
  else true

/-- The JWS header: its claims map (the typed-field cache of the source is
collapsed per the design note §9). -/
structure JwsHeader where
  claimsSet : JMap
  deriving DecidableEq

/-- Modelled from the spec: `JwsHeader::from_map`; a type mismatch fails with
`InvalidJwtFormat` (§7). -/
def JwsHeader.fromMap (m : JMap) : Except JoseError JwsHeader :=
  if m.all (fun e => jwsHeaderParamOk e.1 e.2) then .ok ⟨m⟩
  else .error .invalidJwtFormat

/-- Modelled from the spec: the per-claim typing rule of
`JwtPayload::from_map` (§3: `iss`, `sub`, `jti` strings; `aud` a string or a
sequence of strings; `exp`, `nbf`, `iat` non-negative integers; other claims
pass through). -/
def jwtClaimOk (k : JStr) (v : Json) : Bool :=
  if k = kIss ∨ k = kSub ∨ k = kJti then
    match v with
    | .str _ => true
    | _ => false
  else if k = kAud then
    match v with
    | .str _ => true
    | .arr vals =>
      vals.all (fun x =>
        match x with
        | .str _ => true
        | _ => false)
    | _ => false
  else if k = kExp ∨ k = kNbf ∨ k = kIat then
    match v with
    | .num n => decide (0 ≤ n)
    | _ => false
  else true

/-- The JWT claim set. -/
structure JwtPayload where
  claimsSet : JMap
  deriving DecidableEq

/-- Modelled from the spec: `JwtPayload::from_map`. -/
def JwtPayload.fromMap (m : JMap) : Except JoseError JwtPayload :=
  if m.all (fun e => jwtClaimOk e.1 e.2) then .ok ⟨m⟩
  else .error .invalidJwtFormat

/-! ### The unsecured JWT path (`src/jwt.rs`) -/

/-- `JwtContext::encode_unsecured` (src/jwt.rs lines 68-96): clone the header
claims, insert `alg: "none"`, serialize header and payload to JSON, Base64URL
both and join as `H64.P64.` with an empty third segment.  (The Rust signature
returns `Result`, but serializing a `Map` cannot fail, so the model is
total.) -/
def encodeUnsecured (payload : JwtPayload) (header : JwsHeader) : List Nat :=
  let headerMap := mapInsert header.claimsSet kAlg (.str sNone)
  b64Encode (serJson (.obj headerMap)) ++ 46 ::
    (b64Encode (serJson (.obj payload.claimsSet)) ++ [46])

/-- `JwtContext::decode_unsecured` (src/jwt.rs lines 185-222): split on `.`,
require exactly three parts with an empty third, decode and parse the header,
require `alg` to be the string `"none"` and `kid` to be absent, then build the
header and payload values.  Every `bail!` maps to `InvalidJwtFormat`. -/
def decodeUnsecured (input : List Nat) :
    Except JoseError (JwtPayload × JwsHeader) :=
  match splitByte 46 input with
  | [p0, p1, p2] =>
    if p2.length ≠ 0 then .error .invalidJwtFormat
    else
      match b64Decode p0 with
      | none => .error .invalidJwtFormat
      | some headerBytes =>
        match jsonParseMap headerBytes with
        | none => .error .invalidJwtFormat
        | some header =>
          match mapGet header kAlg with
          | some (.str v) =>
            if v = sNone then
              match mapGet header kKid with
              | none =>
                match JwsHeader.fromMap header with
                | .error e => .error e
                | .ok jwsHeader =>
                  match b64Decode p1 with
                  | none => .error .invalidJwtFormat
                  | some payloadBytes =>
                    match jsonParseMap payloadBytes with
                    | none => .error .invalidJwtFormat
                    | some payloadMap =>
                      match JwtPayload.fromMap payloadMap with
                      | .error e => .error e
                      | .ok payload => .ok (payload, jwsHeader)
              | some _ => .error .invalidJwtFormat
            else .error .invalidJwtFormat
          | some _ => .error .invalidJwtFormat
          | none => .error .invalidJwtFormat
  | _ => .error .invalidJwtFormat

/-! ### The payload validator

`JwtPayloadValidator` lives in `src/jwt/payload_validator.rs`, which is not
among the provided sources; it is modelled from the spec (§4.9). -/

/-- Modelled from the spec: the validator configuration (all fields
optional). -/
structure JwtPayloadValidator where
  baseTime : Option Nat
  issuer : Option JStr
  subject : Option JStr
  audience : Option JStr
  jwtId : Option JStr
  claims : List (JStr × Json)

/-- Rule 1 (§4.9): if `exp` is present and `base_time ≥ exp`, fail expired. -/
def checkExp (t : Nat) (p : JMap) : Except JoseError Unit :=
  match mapGet p kExp with
  | some (.num e) => if e ≤ (t : Int) then .error .invalidClaim else .ok ()
  | _ => .ok ()

/-- Rule 2 (§4.9): if `nbf` is present and `base_time < nbf`, fail
not-yet-valid. -/
def checkNbf (t : Nat) (p : JMap) : Except JoseError Unit :=
  match mapGet p kNbf with
  | some (.num nb) => if (t : Int) < nb then .error .invalidClaim else .ok ()
  | _ => .ok ()

/-- An equality check on a declared string field (§4.9 rule 3). -/
def checkEqClaim (expected : Option JStr) (k : JStr) (p : JMap) :
    Except JoseError Unit :=
  match expected with
  | none => .ok ()
  | some s =>
    if mapGet p k = some (.str s) then .ok () else .error .invalidClaim

/-- Audience matching: `aud` may be a single string or a sequence (§4.9). -/
def audMatch (target : JStr) (v : Json) : Bool :=
  match v with
  | .str s => decide (s = target)
  | .arr vals =>
    vals.any (fun x =>
      match x with
      | .str s => decide (s = target)
      | _ => false)
  | _ => false

/-- The audience check (§4.9 rule 3). -/
def checkAud (expected : Option JStr) (p : JMap) : Except JoseError Unit :=
  match expected with
  | none => .ok ()
  | some s =>
    match mapGet p kAud with
    | some v => if audMatch s v then .ok () else .error .invalidClaim
    | none => .error .invalidClaim

/-- Arbitrary equality-matched claim assertions (§4.9). -/
def checkClaims : List (JStr × Json) → JMap → Bool
  | [], _ => true
  | (k, val) :: rest, m =>
    decide (mapGet m k = some val) && checkClaims rest m

/-- Modelled from the spec: `JwtPayloadValidator::validate` (§4.9), rules
applied in order, every failure surfaced as `InvalidClaim`. -/
def JwtPayloadValidator.validate (v : JwtPayloadValidator) (p : JwtPayload) :
    Except JoseError Unit :=
  let m := p.claimsSet
  (match v.baseTime with
   | some t => checkExp t m >>= fun _ => checkNbf t m
   | none => .ok ()) >>= fun _ =>
  checkEqClaim v.issuer kIss m >>= fun _ =>
  checkEqClaim v.subject kSub m >>= fun _ =>
  checkAud v.audience m >>= fun _ =>
  checkEqClaim v.jwtId kJti m >>= fun _ =>
  if checkClaims v.claims m then .ok () else .error .invalidClaim

/-! ### RSA-PSS key factories (`src/jws/rsapss.rs`) -/

/-- An openssl `PKey`: an RSA key is characterized by its modulus bit length;
any other key kind makes `pkey.rsa()` fail. -/
inductive PKey where
  | rsa (modulusBits : Nat)
  | nonRsa
  deriving DecidableEq

/-- openssl `Rsa::size()`: the modulus size in bytes, `ceil(bits / 8)`. -/
def rsaSizeBytes (bits : Nat) : Nat := (bits + 7) / 8

/-- `RsaPssJwsAlgorithm::check_key` (src/jws/rsapss.rs lines 268-276):
`pkey.rsa()?` fails on a non-RSA key; then fail iff `rsa.size() * 8 < 2048`.
Note `size()` is the modulus size in bytes. -/
def checkKey : PKey → Except Unit Unit
  | .rsa bits => if rsaSizeBytes bits * 8 < 2048 then .error () else .ok ()
  | .nonRsa => .error ()

/-- `RsaPssJwsSigner`: the signer handler holding the private key. -/
structure RsaPssJwsSigner where
  privateKey : PKey
  deriving DecidableEq

/-- `RsaPssJwsVerifier`: the verifier handler holding the public key. -/
structure RsaPssJwsVerifier where
  publicKey : PKey
  deriving DecidableEq

/-- The external collaborators of the RSA-PSS factories: `parse_pem` (from
`jws/util.rs`) and the `DerReader`/`DerBuilder` internals behind
`detect_pkcs8`/`to_pkcs8` are not among the provided sources, and openssl key
parsing is an external library; all are held abstract here and the theorems
quantify over them. -/
structure RsaCrypto where
  parsePem : List Nat → Option (JStr × List Nat)
  privFromDer : List Nat → Option PKey
  pubFromDer : List Nat → Option PKey
  detectPkcs8 : List Nat → Bool → Except Unit Bool
  toPkcs8 : List Nat → Bool → List Nat
  buildRsaDer : List (List Nat) → List Nat

/-- The common tail of every signer factory: run `check_key` on the parsed
key and construct the `RsaPssJwsSigner` on success. -/
def finishSigner (pkey : PKey) : Except JoseError RsaPssJwsSigner :=
  match checkKey pkey with
  | .error _ => .error .invalidKeyFormat
  | .ok _ => .ok ⟨pkey⟩

/-- The common tail of every verifier factory. -/
def finishVerifier (pkey : PKey) : Except JoseError RsaPssJwsVerifier :=
  match checkKey pkey with
  | .error _ => .error .invalidKeyFormat
  | .ok _ => .ok ⟨pkey⟩

/-- `RsaPssJwsAlgorithm::signer_from_pem` (src/jws/rsapss.rs lines 113-140):
match on the PEM label, build the key, then `check_key`; the whole closure is
wrapped with `JoseError::InvalidKeyFormat`. -/
def signerFromPem (C : RsaCrypto) (input : List Nat) :
    Except JoseError RsaPssJwsSigner :=
  match C.parsePem input with
  | none => .error .invalidKeyFormat
  | some (label, data) =>
    if label = sPrivateKey ∨ label = sRsaPssPrivateKey then
      match C.detectPkcs8 data false with
      | .error _ => .error .invalidKeyFormat
      | .ok false => .error .invalidKeyFormat
      | .ok true =>
        match C.privFromDer data with
        | none => .error .invalidKeyFormat
        | some pkey => finishSigner pkey
    else if label = sRsaPrivateKey then
      match C.privFromDer (C.toPkcs8 data false) with
      | none => .error .invalidKeyFormat
      | some pkey => finishSigner pkey
    else .error .invalidKeyFormat

/-- `RsaPssJwsAlgorithm::verifier_from_pem` (src/jws/rsapss.rs lines
207-233). -/
def verifierFromPem (C : RsaCrypto) (input : List Nat) :
    Except JoseError RsaPssJwsVerifier :=
  match C.parsePem input with
  | none => .error .invalidKeyFormat
  | some (label, data) =>
    if label = sPublicKey ∨ label = sRsaPssPublicKey then
      match C.detectPkcs8 data true with
      | .error _ => .error .invalidKeyFormat
      | .ok false => .error .invalidKeyFormat
      | .ok true =>
        match C.pubFromDer data with
        | none => .error .invalidKeyFormat
        | some pkey => finishVerifier pkey
    else if label = sRsaPublicKey then
      match C.pubFromDer (C.toPkcs8 data true) with
      | none => .error .invalidKeyFormat
      | some pkey => finishVerifier pkey
    else .error .invalidKeyFormat

/-- `RsaPssJwsAlgorithm::signer_from_der` (src/jws/rsapss.rs lines
146-164). -/
def signerFromDer (C : RsaCrypto) (input : List Nat) :
    Except JoseError RsaPssJwsSigner :=
  match C.detectPkcs8 input false with
  | .error _ => .error .invalidKeyFormat
  | .ok detected =>
    match C.privFromDer (if detected then input else C.toPkcs8 input false) with
    | none => .error .invalidKeyFormat
    | some pkey => finishSigner pkey

/-- `RsaPssJwsAlgorithm::verifier_from_der` (src/jws/rsapss.rs lines
239-257). -/
def verifierFromDer (C : RsaCrypto) (input : List Nat) :
    Except JoseError RsaPssJwsVerifier :=
  match C.detectPkcs8 input true with
  | .error _ => .error .invalidKeyFormat
  | .ok detected =>
    match C.pubFromDer (if detected then input else C.toPkcs8 input true) with
    | none => .error .invalidKeyFormat
    | some pkey => finishVerifier pkey

/-- Modelled from the spec/usage: `json_eq(map, key, value, required)` from
`jws/util.rs` (not among the provided sources): the parameter, when present
(or unconditionally when required), must be the given string. -/
def jsonEq (m : JMap) (k : JStr) (v : JStr) (required : Bool) : Bool :=
  match mapGet m k with
  | some (.str s) => decide (s = v)
  | none => !required
  | some _ => false

/-- Modelled from the spec/usage: `json_base64_bytes(map, key)` from
`jws/util.rs`: the parameter must be a Base64URL-no-pad string; returns its
decoded bytes. -/
def jsonBase64Bytes (m : JMap) (k : JStr) : Option (List Nat) :=
  match mapGet m k with
  | some (.str s) => b64Decode s
  | _ => none

/-- `RsaPssJwsAlgorithm::signer_from_jwk` (src/jws/rsapss.rs lines 64-107):
parse the JWK JSON, check `alg`/`kty`/`use`, decode the eight RSA components,
build PKCS#8 DER, parse it with openssl and run `check_key`. -/
def signerFromJwk (name : JStr) (C : RsaCrypto) (input : List Nat) :
    Except JoseError RsaPssJwsSigner :=
  match jsonParseMap input with
  | none => .error .invalidKeyFormat
  | some m =>
    if jsonEq m kAlg name false && jsonEq m kKty sRSA true
        && jsonEq m kUse sSig false then
      match jsonBase64Bytes m kN, jsonBase64Bytes m kE, jsonBase64Bytes m kD,
          jsonBase64Bytes m kP, jsonBase64Bytes m kQ, jsonBase64Bytes m kDp,
          jsonBase64Bytes m kDq, jsonBase64Bytes m kQi with
      | some n, some e, some d, some p, some q, some dp, some dq, some qi =>
        match C.privFromDer
            (C.toPkcs8 (C.buildRsaDer [n, e, d, p, q, dp, dq, qi]) false) with
        | none => .error .invalidKeyFormat
        | some pkey => finishSigner pkey
      | _, _, _, _, _, _, _, _ => .error .invalidKeyFormat
    else .error .invalidKeyFormat

/-- `RsaPssJwsAlgorithm::verifier_from_jwk` (src/jws/rsapss.rs lines
170-201). -/
def verifierFromJwk (name : JStr) (C : RsaCrypto) (input : List Nat) :
    Except JoseError RsaPssJwsVerifier :=
  match jsonParseMap input with
  | none => .error .invalidKeyFormat
  | some m =>
    if jsonEq m kAlg name false && jsonEq m kKty sRSA true
        && jsonEq m kUse sSig false then
      match jsonBase64Bytes m kN, jsonBase64Bytes m kE with
      | some n, some e =>
        match C.pubFromDer (C.toPkcs8 (C.buildRsaDer [n, e]) true) with
        | none => .error .invalidKeyFormat
        | some pkey => finishVerifier pkey
      | _, _ => .error .invalidKeyFormat
    else .error .invalidKeyFormat

/-! ## Checking the specification's claims -/

/-- **C1.** The spec claims `kty` is present and a string on any JWK built by
`Jwk::from_map`.  The code does not enforce this: the `from_map` loop never
inspects `kty` (it falls into the catch-all arm), so the empty map is
accepted, the resulting JWK has no `kty` parameter, and `key_type()` hits its
`unreachable!("The JWS kty parameter is required.")` abort (modelled as
`keyType = none`) — contradicting the code's own assertion. -/
theorem C1_from_map_accepts_missing_kty :
    ∃ j : Jwk, Jwk.fromMap [] = .ok j ∧
      mapGet j.params kKty = none ∧ j.keyType = none := by
  refine ⟨⟨none, none, none, none, []⟩, ?_, rfl, rfl⟩
  rfl

/-- **C10.** `Jwk::set_parameter("kty", Some(string))` returns `Ok` but never
stores the value (the `Some(Value::String(_)) => {}` arm does nothing), so the
whole JWK — its parameter map and hence `key_type()` — is unchanged; and
`set_parameter("kty", None)` falls into the catch-all `_ => bail!` arm,
returning `InvalidJwtFormat` with the map unchanged. -/
theorem C10_set_parameter_kty_is_inert (j : Jwk) (s : JStr) :
    j.setParameter kKty (some (.str s)) = .ok j ∧
    j.setParameter kKty none = .error .invalidJwtFormat := by
  constructor
  · simp [Jwk.setParameter]
  · simp [Jwk.setParameter]

theorem checkKey_ok {pk : PKey} {u : Unit} (h : checkKey pk = .ok u) :
    ∃ bits, pk = .rsa bits ∧ 2048 ≤ rsaSizeBytes bits * 8 := by
  cases pk with
  | rsa bits =>
    refine ⟨bits, rfl, ?_⟩
    by_cases hlt : rsaSizeBytes bits * 8 < 2048
    · simp [checkKey, hlt] at h
    · omega
  | nonRsa => cases h

theorem finishSigner_ok {pkey : PKey} {s : RsaPssJwsSigner}
    (h : finishSigner pkey = .ok s) :
    ∃ bits, s.privateKey = .rsa bits ∧ 2048 ≤ rsaSizeBytes bits * 8 := by
  unfold finishSigner at h
  split at h
  · cases h
  · cases h
    rename_i u hck
    obtain ⟨bits, rfl, hb⟩ := checkKey_ok hck
    exact ⟨bits, rfl, hb⟩

theorem finishVerifier_ok {pkey : PKey} {s : RsaPssJwsVerifier}
    (h : finishVerifier pkey = .ok s) :
    ∃ bits, s.publicKey = .rsa bits ∧ 2048 ≤ rsaSizeBytes bits * 8 := by
  unfold finishVerifier at h
  split at h
  · cases h
  · cases h
    rename_i u hck
    obtain ⟨bits, rfl, hb⟩ := checkKey_ok hck
    exact ⟨bits, rfl, hb⟩

/-- A deliberately permissive instantiation of the abstract crypto
collaborators, in which openssl yields a 2047-bit RSA key: openssl will parse
such a key, so this is a reachable behaviour of the real collaborators. -/
def shortKeyCrypto : RsaCrypto where
  parsePem := fun _ => some (sPrivateKey, [])
  privFromDer := fun _ => some (.rsa 2047)
  pubFromDer := fun _ => some (.rsa 2047)
  detectPkcs8 := fun _ _ => .ok true
  toPkcs8 := fun _ _ => []
  buildRsaDer := fun _ => []

/-- **C9 (counterexample).** The claim says every factory rejects an RSA
modulus shorter than 2048 bits.  But `check_key` tests `rsa.size() * 8 <
2048` where `size()` is the modulus size in **bytes** (`ceil(bits/8)`); a
2047-bit modulus has `size() = 256`, so `256 * 8 = 2048` is not `< 2048` and
the signer is constructed over a key shorter than 2048 bits. -/
theorem C9_counterexample_short_key_accepted :
    signerFromPem shortKeyCrypto [] = .ok ⟨PKey.rsa 2047⟩ ∧ 2047 < 2048 := by
  constructor
  · rfl
  · decide

/-- **C9 (amended).** Every RSA-PSS factory constructs a handler only over an
RSA key that passed `check_key`, i.e. whose modulus **byte** length is at
least 256 (`rsa.size() * 8 ≥ 2048`, equivalently a bit length of at least
2041); any key failing that test — and any non-RSA key — is rejected with
`InvalidKeyFormat` before a handler exists. -/
theorem C9_factories_enforce_checked_key_size (name : JStr) (C : RsaCrypto)
    (input : List Nat) :
    (∀ s, signerFromJwk name C input = .ok s →
      ∃ bits, s.privateKey = .rsa bits ∧ 2048 ≤ rsaSizeBytes bits * 8) ∧
    (∀ s, signerFromPem C input = .ok s →
      ∃ bits, s.privateKey = .rsa bits ∧ 2048 ≤ rsaSizeBytes bits * 8) ∧
    (∀ s, signerFromDer C input = .ok s →
      ∃ bits, s.privateKey = .rsa bits ∧ 2048 ≤ rsaSizeBytes bits * 8) ∧
    (∀ s, verifierFromJwk name C input = .ok s →
      ∃ bits, s.publicKey = .rsa bits ∧ 2048 ≤ rsaSizeBytes bits * 8) ∧
    (∀ s, verifierFromPem C input = .ok s →
      ∃ bits, s.publicKey = .rsa bits ∧ 2048 ≤ rsaSizeBytes bits * 8) ∧
    (∀ s, verifierFromDer C input = .ok s →
      ∃ bits, s.publicKey = .rsa bits ∧ 2048 ≤ rsaSizeBytes bits * 8) := by
  refine ⟨?_, ?_, ?_, ?_, ?_, ?_⟩ <;>
    · intro s h
      first
      | (unfold signerFromJwk at h)
      | (unfold signerFromPem at h)
      | (unfold signerFromDer at h)
      | (unfold verifierFromJwk at h)
      | (unfold verifierFromPem at h)
      | (unfold verifierFromDer at h)
      repeat' split at h
      all_goals
        first
        | cases h
        | exact finishSigner_ok h
        | exact finishVerifier_ok h

theorem C9_factories_enforce_checked_key_size_witness :
    ∃ s, signerFromPem shortKeyCrypto [] = .ok s ∧
      ∃ bits, s.privateKey = .rsa bits ∧ 2048 ≤ rsaSizeBytes bits * 8 := by
  refine ⟨⟨PKey.rsa 2047⟩, rfl, ?_⟩
  exact (C9_factories_enforce_checked_key_size [] shortKeyCrypto []).2.1
    ⟨PKey.rsa 2047⟩ rfl

/-- **C8.** The PEM factories accept exactly the labels the spec lists for
RSA-PSS: a signer is built only when `parse_pem` yields `PRIVATE KEY`,
`RSA-PSS PRIVATE KEY` or `RSA PRIVATE KEY`, a verifier only for the three
public labels; any other parsed label falls into the
`alg => bail!("Inappropriate algorithm")` arm and, through the factory's
error wrapper, surfaces as `InvalidKeyFormat`. -/
theorem C8_pem_label_gate (C : RsaCrypto) (input : List Nat) :
    (∀ s, signerFromPem C input = .ok s →
      ∃ label data, C.parsePem input = some (label, data) ∧
        (label = sPrivateKey ∨ label = sRsaPssPrivateKey ∨
          label = sRsaPrivateKey)) ∧
    (∀ label data, C.parsePem input = some (label, data) →
      label ≠ sPrivateKey → label ≠ sRsaPssPrivateKey →
      label ≠ sRsaPrivateKey →
      signerFromPem C input = .error .invalidKeyFormat) ∧
    (∀ s, verifierFromPem C input = .ok s →
      ∃ label data, C.parsePem input = some (label, data) ∧
        (label = sPublicKey ∨ label = sRsaPssPublicKey ∨
          label = sRsaPublicKey)) ∧
    (∀ label data, C.parsePem input = some (label, data) →
      label ≠ sPublicKey → label ≠ sRsaPssPublicKey →
      label ≠ sRsaPublicKey →
      verifierFromPem C input = .error .invalidKeyFormat) := by
  refine ⟨?_, ?_, ?_, ?_⟩
  · intro s h
    unfold signerFromPem at h
    split at h
    · cases h
    · rename_i label data hp
      refine ⟨label, data, hp, ?_⟩
      by_cases h1 : label = sPrivateKey ∨ label = sRsaPssPrivateKey
      · rcases h1 with h1 | h1
        · exact Or.inl h1
        · exact Or.inr (Or.inl h1)
      · rw [if_neg h1] at h
        by_cases h2 : label = sRsaPrivateKey
        · exact Or.inr (Or.inr h2)
        · rw [if_neg h2] at h
          cases h
  · intro label data hp hn1 hn2 hn3
    unfold signerFromPem
    rw [hp]
    simp [hn1, hn2, hn3]
  · intro s h
    unfold verifierFromPem at h
    split at h
    · cases h
    · rename_i label data hp
      refine ⟨label, data, hp, ?_⟩
      by_cases h1 : label = sPublicKey ∨ label = sRsaPssPublicKey
      · rcases h1 with h1 | h1
        · exact Or.inl h1
        · exact Or.inr (Or.inl h1)
      · rw [if_neg h1] at h
        by_cases h2 : label = sRsaPublicKey
        · exact Or.inr (Or.inr h2)
        · rw [if_neg h2] at h
          cases h
  · intro label data hp hn1 hn2 hn3
    unfold verifierFromPem
    rw [hp]
    simp [hn1, hn2, hn3]

/-- A crypto instantiation whose PEM parser yields the unrecognized label
`"X"`. -/
def oddLabelCrypto : RsaCrypto where
  parsePem := fun _ => some ([88], [])
  privFromDer := fun _ => none
  pubFromDer := fun _ => none
  detectPkcs8 := fun _ _ => .ok true
  toPkcs8 := fun _ _ => []
  buildRsaDer := fun _ => []

theorem C8_pem_label_gate_witness :
    signerFromPem oddLabelCrypto [] = .error .invalidKeyFormat ∧
    verifierFromPem oddLabelCrypto [] = .error .invalidKeyFormat := by
  constructor
  · exact (C8_pem_label_gate oddLabelCrypto []).2.1 [88] [] rfl
      (by decide) (by decide) (by decide)
  · exact (C8_pem_label_gate oddLabelCrypto []).2.2.2 [88] [] rfl
      (by decide) (by decide) (by decide)

/-- **C6.** The JWK-set lookup feeding `decode_with_verifier_in_jwk_set` and
`decode_with_decrypter_in_jwk_set` yields exactly the JWKs whose `kid`
parameter is the given string, in the order they appear in the set's `keys`
sequence (`Sublist`), and never a JWK with no `kid` parameter. -/
theorem C6_jwk_set_lookup (s : JwkSet) (k : JStr) :
    (s.get k).Sublist s.keys ∧
    (∀ j ∈ s.get k, mapGet j.params kKid = some (.str k)) ∧
    (∀ j ∈ s.keys, mapGet j.params kKid = some (.str k) → j ∈ s.get k) ∧
    (∀ j : Jwk, mapGet j.params kKid = none → j ∉ s.get k) := by
  refine ⟨List.filter_sublist _, ?_, ?_, ?_⟩
  · intro j hj
    have := List.of_mem_filter hj
    simpa using this
  · intro j hj hk
    exact List.mem_filter.mpr ⟨hj, by simpa using hk⟩
  · intro j hnone hmem
    have := List.of_mem_filter hmem
    simp at this
    rw [this] at hnone
    cases hnone

/-- A one-key set whose JWK has `kid = "k"`. -/
def kidJwk : Jwk := ⟨none, none, none, none, [(kKid, .str [107])]⟩

def kidJwkSet : JwkSet := ⟨[kidJwk], []⟩

theorem C6_jwk_set_lookup_witness :
    kidJwk ∈ kidJwkSet.get [107] ∧
    (∀ j ∈ kidJwkSet.get [107], mapGet j.params kKid = some (.str [107])) :=
  ⟨(C6_jwk_set_lookup kidJwkSet [107]).2.2.1 kidJwk (by decide) (by decide),
    (C6_jwk_set_lookup kidJwkSet [107]).2.1⟩

theorem exBindOk {α : Type} (a : α) (f : α → Except JoseError Unit) :
    ((Except.ok a : Except JoseError α) >>= f) = f a := rfl

theorem exBindErrEq {α : Type} (e : JoseError) (f : α → Except JoseError Unit) :
    ((Except.error e : Except JoseError α) >>= f)
      = (Except.error e : Except JoseError Unit) := rfl

theorem exBindError {α : Type} {x : Except JoseError α}
    {f : α → Except JoseError Unit} {e : JoseError}
    (h : (x >>= f) = .error e)
    (hx : ∀ e2, x = .error e2 → e2 = .invalidClaim)
    (hf : ∀ a e2, f a = .error e2 → e2 = .invalidClaim) :
    e = .invalidClaim := by
  cases hxv : x with
  | error e2 =>
    rw [hxv, exBindErrEq] at h
    injection h with h2
    subst h2
    exact hx _ hxv
  | ok a =>
    rw [hxv, exBindOk] at h
    exact hf a e h

theorem checkExp_error {t : Nat} {m : JMap} {e : JoseError}
    (h : checkExp t m = .error e) : e = .invalidClaim := by
  unfold checkExp at h
  repeat' split at h
  all_goals simp_all

theorem checkNbf_error {t : Nat} {m : JMap} {e : JoseError}
    (h : checkNbf t m = .error e) : e = .invalidClaim := by
  unfold checkNbf at h
  repeat' split at h
  all_goals simp_all

theorem checkEqClaim_error {x : Option JStr} {k : JStr} {m : JMap}
    {e : JoseError} (h : checkEqClaim x k m = .error e) : e = .invalidClaim := by
  unfold checkEqClaim at h
  repeat' split at h
  all_goals simp_all

theorem checkAud_error {x : Option JStr} {m : JMap} {e : JoseError}
    (h : checkAud x m = .error e) : e = .invalidClaim := by
  unfold checkAud at h
  repeat' split at h
  all_goals simp_all

theorem validate_error_kind (v : JwtPayloadValidator) (p : JwtPayload) :
    ∀ e, v.validate p = .error e → e = .invalidClaim := by
  intro e h
  unfold JwtPayloadValidator.validate at h
  refine exBindError h ?_ ?_
  · intro e2 he2
    cases hbt : v.baseTime with
    | none => rw [hbt] at he2; cases he2
    | some t =>
      rw [hbt] at he2
      exact exBindError he2 (fun e3 h3 => checkExp_error h3)
        (fun a e3 h3 => checkNbf_error h3)
  · intro a e2 he2
    refine exBindError he2 (fun e3 h3 => checkEqClaim_error h3) ?_
    intro a2 e3 he3
    refine exBindError he3 (fun e4 h4 => checkEqClaim_error h4) ?_
    intro a3 e4 he4
    refine exBindError he4 (fun e5 h5 => checkAud_error h5) ?_
    intro a4 e5 he5
    refine exBindError he5 (fun e6 h6 => checkEqClaim_error h6) ?_
    intro a5 e6 he6
    split at he6
    · cases he6
    · cases he6
      rfl

/-- **C7.** With a `base_time` configured: a payload whose `exp` claim
satisfies `base_time ≥ exp` (equality included) fails validation with
`InvalidClaim`; a payload whose `nbf` claim satisfies `base_time < nbf` fails
with `InvalidClaim`; and every validator failure whatsoever is surfaced as
`InvalidClaim`. -/
theorem C7_validator_time_bounds (v : JwtPayloadValidator) (p : JwtPayload)
    (t : Nat) (hbt : v.baseTime = some t) :
    (∀ e : Int, mapGet p.claimsSet kExp = some (.num e) → e ≤ (t : Int) →
      v.validate p = .error .invalidClaim) ∧
    (∀ nb : Int, mapGet p.claimsSet kNbf = some (.num nb) → (t : Int) < nb →
      v.validate p = .error .invalidClaim) ∧
    (∀ e, v.validate p = .error e → e = .invalidClaim) := by
  refine ⟨?_, ?_, validate_error_kind v p⟩
  · intro e hexp hle
    have h1 : checkExp t p.claimsSet = .error .invalidClaim := by
      simp [checkExp, hexp, hle]
    unfold JwtPayloadValidator.validate
    rw [hbt]
    simp only [h1, exBindErrEq]
  · intro nb hnbf hlt
    have h2 : checkNbf t p.claimsSet = .error .invalidClaim := by
      simp [checkNbf, hnbf, hlt]
    unfold JwtPayloadValidator.validate
    rw [hbt]
    cases hce : checkExp t p.claimsSet with
    | error e2 =>
      have he2 := checkExp_error hce
      subst he2
      simp only [hce, exBindErrEq]
    | ok a =>
      cases a
      simp only [hce, exBindOk, h2, exBindErrEq]

def c7Validator : JwtPayloadValidator :=
  ⟨some 70, none, none, none, none, []⟩

def c7Payload : JwtPayload := ⟨[(kExp, .num 60)]⟩

theorem C7_validator_time_bounds_witness :
    c7Validator.validate c7Payload = .error .invalidClaim :=
  (C7_validator_time_bounds c7Validator c7Payload 70 rfl).1 60 rfl (by decide)

/-! ### C2: the `decode_unsecured` gate -/

theorem JwsHeader_fromMap_error (m : JMap) (e : JoseError)
    (h : JwsHeader.fromMap m = .error e) : e = .invalidJwtFormat := by
  unfold JwsHeader.fromMap at h
  split at h
  · exact absurd h (by simp)
  · injection h with h2
    exact h2.symm

theorem JwtPayload_fromMap_error (m : JMap) (e : JoseError)
    (h : JwtPayload.fromMap m = .error e) : e = .invalidJwtFormat := by
  unfold JwtPayload.fromMap at h
  split at h
  · exact absurd h (by simp)
  · injection h with h2
    exact h2.symm

theorem decodeUnsecured_error_kind (input : List Nat) (e : JoseError)
    (h : decodeUnsecured input = .error e) : e = .invalidJwtFormat := by
  unfold decodeUnsecured at h
  repeat' split at h
  all_goals first
    | (injection h with h2; exact h2.symm)
    | (injection h with h2; subst h2; first
        | exact JwsHeader_fromMap_error _ _ (by assumption)
        | exact JwtPayload_fromMap_error _ _ (by assumption))
    | cases h

theorem decodeUnsecured_ok_shape (input : List Nat) (pr : JwtPayload × JwsHeader)
    (h : decodeUnsecured input = .ok pr) :
    ∃ p0 p1 headerBytes header,
      splitByte 46 input = [p0, p1, []] ∧
      b64Decode p0 = some headerBytes ∧
      jsonParseMap headerBytes = some header ∧
      mapGet header kAlg = some (.str sNone) ∧
      mapGet header kKid = none := by
  unfold decodeUnsecured at h
  split at h
  next p0 p1 p2 hsp =>
    split at h
    next hlen => exact absurd h (by simp)
    next hlen =>
      have hp2 : p2 = [] := by
        cases p2 with
        | nil => rfl
        | cons x xs => simp at hlen
      subst hp2
      split at h
      next hb64 => exact absurd h (by simp)
      next headerBytes hb64 =>
        split at h
        next hjp => exact absurd h (by simp)
        next header hjp =>
          cases halg : mapGet header kAlg with
          | none => rw [halg] at h; simp at h
          | some jv =>
            cases jv with
            | null => rw [halg] at h; simp at h
            | bool b => rw [halg] at h; simp at h
            | num n => rw [halg] at h; simp at h
            | arr es => rw [halg] at h; simp at h
            | obj ms => rw [halg] at h; simp at h
            | str v =>
              rw [halg] at h
              by_cases hv : v = sNone
              · subst hv
                cases hkid : mapGet header kKid with
                | none =>
                  exact ⟨p0, p1, headerBytes, header, hsp, hb64, hjp, halg, hkid⟩
                | some w => rw [hkid] at h; simp at h
              · simp [hv] at h
  next hsp => exact absurd h (by simp)

/-- C2: `decode_unsecured` returns `Ok` only when the input splits on `.` into
exactly three parts with an empty third part and a header whose `alg` is the
string `"none"` and which has no `kid` entry; every failure is
`InvalidJwtFormat`. -/
theorem C2_decode_unsecured_gate (input : List Nat) :
    (∀ pr : JwtPayload × JwsHeader, decodeUnsecured input = .ok pr →
      ∃ p0 p1 headerBytes header,
        splitByte 46 input = [p0, p1, []] ∧
        b64Decode p0 = some headerBytes ∧
        jsonParseMap headerBytes = some header ∧
        mapGet header kAlg = some (.str sNone) ∧
        mapGet header kKid = none) ∧
    (∀ e, decodeUnsecured input = .error e → e = .invalidJwtFormat) :=
  ⟨fun pr h => decodeUnsecured_ok_shape input pr h,
   fun e h => decodeUnsecured_error_kind input e h⟩

theorem C2_decode_unsecured_gate_witness :
    decodeUnsecured [97, 46, 98, 46, 99] = .error .invalidJwtFormat ∧
    JoseError.invalidJwtFormat = JoseError.invalidJwtFormat :=
  ⟨by rfl,
   (C2_decode_unsecured_gate [97, 46, 98, 46, 99]).2 .invalidJwtFormat (by rfl)⟩

/-! ### C4: getters on maps accepted by `Jwk::from_map` -/

theorem jwkFromMapLoop_str_entry :
    ∀ (m : List (JStr × Json)) ko xc x1 x2 r,
      jwkFromMapLoop m ko xc x1 x2 = .ok r →
      ∀ kv : JStr × Json, kv ∈ m →
        (kv.1 = kJku ∨ kv.1 = kX5u ∨ kv.1 = kKid ∨ kv.1 = kTyp ∨ kv.1 = kCty) →
        ∃ s, kv.2 = Json.str s := by
  intro m
  induction m with
  | nil =>
    intro ko xc x1 x2 r h kv hmem hk
    exact absurd hmem (by simp)
  | cons e rest ih =>
    intro ko xc x1 x2 r h kv hmem hk
    obtain ⟨key, value⟩ := e
    rw [List.mem_cons] at hmem
    unfold jwkFromMapLoop at h
    rcases hmem with rfl | hmem
    · have hk2 : key = kJku ∨ key = kX5u ∨ key = kKid ∨ key = kTyp ∨
          key = kCty := hk
      rw [if_pos hk2] at h
      cases value with
      | str s => exact ⟨s, rfl⟩
      | null => cases h
      | bool b => cases h
      | num n => cases h
      | arr es => cases h
      | obj ms => cases h
    · repeat' split at h
      all_goals first
        | cases h
        | exact ih _ _ _ _ _ h kv hmem hk

theorem Jwk_fromMap_params (m : JMap) (j : Jwk) (h : Jwk.fromMap m = .ok j) :
    j.params = m := by
  unfold Jwk.fromMap at h
  split at h
  · cases h
  · injection h with h2
    rw [← h2]

theorem Jwk_fromMap_registered_str (m : JMap) (j : Jwk)
    (h : Jwk.fromMap m = .ok j) (kv : JStr × Json) (hmem : kv ∈ m)
    (hk : kv.1 = kJku ∨ kv.1 = kX5u ∨ kv.1 = kKid ∨ kv.1 = kTyp ∨
      kv.1 = kCty) :
    ∃ s, kv.2 = Json.str s := by
  unfold Jwk.fromMap at h
  cases hl : jwkFromMapLoop m none none none none with
  | error e => rw [hl] at h; cases h
  | ok t => exact jwkFromMapLoop_str_entry m none none none none t hl kv hmem hk

theorem getterAbortIff (p : JMap) (k : JStr) :
    (match mapGet p k with
     | some (.str v) => some (some v)
     | none => some none
     | some _ => (none : Option (Option JStr))) = none ↔
    ∃ v, mapGet p k = some v ∧ ∀ s, v ≠ Json.str s := by
  cases hm : mapGet p k with
  | none =>
    constructor
    · intro h
      exact absurd h (by simp)
    · rintro ⟨v, hv, _⟩
      cases hv
  | some v =>
    cases v with
    | str s =>
      constructor
      · intro h
        exact absurd h (by simp)
      · rintro ⟨v, hv, hne⟩
        injection hv with hv2
        exact absurd hv2.symm (hne s)
    | null => exact ⟨fun _ => ⟨Json.null, rfl, fun s => by simp⟩, fun _ => rfl⟩
    | bool b => exact ⟨fun _ => ⟨Json.bool b, rfl, fun s => by simp⟩, fun _ => rfl⟩
    | num n => exact ⟨fun _ => ⟨Json.num n, rfl, fun s => by simp⟩, fun _ => rfl⟩
    | arr es => exact ⟨fun _ => ⟨Json.arr es, rfl, fun s => by simp⟩, fun _ => rfl⟩
    | obj ms => exact ⟨fun _ => ⟨Json.obj ms, rfl, fun s => by simp⟩, fun _ => rfl⟩

theorem keyTypeAbortIff (j : Jwk) :
    j.keyType = none ↔ ∀ s, mapGet j.params kKty ≠ some (Json.str s) := by
  unfold Jwk.keyType
  cases hm : mapGet j.params kKty with
  | none => exact ⟨fun _ => by simp, fun _ => rfl⟩
  | some v =>
    cases v with
    | str s =>
      exact ⟨fun h => absurd h (by simp), fun hall => absurd rfl (hall s)⟩
    | null => exact ⟨fun _ => by simp, fun _ => rfl⟩
    | bool b => exact ⟨fun _ => by simp, fun _ => rfl⟩
    | num n => exact ⟨fun _ => by simp, fun _ => rfl⟩
    | arr es => exact ⟨fun _ => by simp, fun _ => rfl⟩
    | obj ms => exact ⟨fun _ => by simp, fun _ => rfl⟩

theorem C4_counterexample_nonstring_use_aborts :
    Jwk.fromMap [(kUse, Json.num 1)] =
      .ok ⟨none, none, none, none, [(kUse, Json.num 1)]⟩ ∧
    Jwk.keyUse ⟨none, none, none, none, [(kUse, Json.num 1)]⟩ = none :=
  ⟨rfl, rfl⟩

/-- C4 (amended): on a map accepted by `Jwk::from_map`, `key_id` and
`x509_url` never abort (their parameters were validated by the loop), while
`key_use` and `algorithm` abort exactly when the map supplied a present
non-string `use` / `alg` value and `key_type` aborts exactly when `kty` is
absent or not a string — because `from_map` does not validate those three
parameters. -/
theorem C4_getters_after_from_map (m : JMap) (j : Jwk)
    (h : Jwk.fromMap m = .ok j) :
    j.keyId ≠ none ∧ j.x509Url ≠ none ∧
    (j.keyUse = none ↔ ∃ v, mapGet m kUse = some v ∧ ∀ s, v ≠ Json.str s) ∧
    (j.algorithm = none ↔
      ∃ v, mapGet m kAlg = some v ∧ ∀ s, v ≠ Json.str s) ∧
    (j.keyType = none ↔ ∀ s, mapGet m kKty ≠ some (Json.str s)) := by
  have hp := Jwk_fromMap_params m j h
  refine ⟨?_, ?_, ?_, ?_, ?_⟩
  · unfold Jwk.keyId
    cases hm : mapGet j.params kKid with
    | none => simp
    | some v =>
      have hmem := mapGet_eq_some_mem hm
      obtain ⟨s, hs⟩ := Jwk_fromMap_registered_str m j h (kKid, v)
        (hp ▸ hmem) (by simp)
      rw [show v = Json.str s from hs]
      simp
  · unfold Jwk.x509Url
    cases hm : mapGet j.params kX5u with
    | none => simp
    | some v =>
      have hmem := mapGet_eq_some_mem hm
      obtain ⟨s, hs⟩ := Jwk_fromMap_registered_str m j h (kX5u, v)
        (hp ▸ hmem) (by simp)
      rw [show v = Json.str s from hs]
      simp
  · rw [← hp]
    exact getterAbortIff j.params kUse
  · rw [← hp]
    exact getterAbortIff j.params kAlg
  · rw [← hp]
    exact keyTypeAbortIff j

theorem C4_getters_after_from_map_witness :
    Jwk.fromMap [(kKid, Json.str [97])] =
      .ok ⟨none, none, none, none, [(kKid, Json.str [97])]⟩ ∧
    Jwk.keyId ⟨none, none, none, none, [(kKid, Json.str [97])]⟩ ≠ none :=
  ⟨rfl,
   (C4_getters_after_from_map [(kKid, Json.str [97])]
     ⟨none, none, none, none, [(kKid, Json.str [97])]⟩ rfl).1⟩

/-! ### C5: `JwkSet::from_map` -/

theorem jwksOfList_ok_iff (vals : List Json) :
    (∃ ks, jwksOfList vals = .ok ks) ↔
    ∀ v ∈ vals, ∃ o j, v = Json.obj o ∧ Jwk.fromMap o = .ok j := by
  induction vals with
  | nil => exact ⟨fun _ => by simp, fun _ => ⟨[], rfl⟩⟩
  | cons v rest ih =>
    constructor
    · rintro ⟨ks, h⟩
      cases v with
      | obj o =>
        simp only [jwksOfList] at h
        cases hf : Jwk.fromMap o with
        | error e => rw [hf] at h; cases h
        | ok j =>
          rw [hf] at h
          cases hr : jwksOfList rest with
          | error e => rw [hr] at h; cases h
          | ok js =>
            intro v2 hmem
            rw [List.mem_cons] at hmem
            rcases hmem with rfl | hmem
            · exact ⟨o, j, rfl, hf⟩
            · exact ih.mp ⟨js, hr⟩ v2 hmem
      | null => simp [jwksOfList] at h
      | bool b => simp [jwksOfList] at h
      | num n => simp [jwksOfList] at h
      | str t => simp [jwksOfList] at h
      | arr es => simp [jwksOfList] at h
    · intro hall
      obtain ⟨o, j, hv, hj⟩ := hall v (by simp)
      obtain ⟨ks, hks⟩ := ih.mpr (fun v2 h2 => hall v2 (by simp [h2]))
      subst hv
      exact ⟨j :: ks, by simp [jwksOfList, hj, hks]⟩

theorem jwksOfList_ok_shape (vals : List Json) :
    ∀ ks, jwksOfList vals = .ok ks →
      ks.length = vals.length ∧
      ∀ i (hv : i < vals.length) (hk : i < ks.length),
        ∃ o, vals.get ⟨i, hv⟩ = Json.obj o ∧
          Jwk.fromMap o = .ok (ks.get ⟨i, hk⟩) := by
  induction vals with
  | nil =>
    intro ks h
    injection h with h2
    subst h2
    exact ⟨rfl, fun i hv hk => absurd hv (by simp)⟩
  | cons v rest ih =>
    intro ks h
    cases v with
    | obj o =>
      simp only [jwksOfList] at h
      cases hf : Jwk.fromMap o with
      | error e => rw [hf] at h; cases h
      | ok j =>
        rw [hf] at h
        cases hr : jwksOfList rest with
        | error e => rw [hr] at h; cases h
        | ok js =>
          rw [hr] at h
          injection h with h2
          subst h2
          obtain ⟨hlen, hord⟩ := ih js hr
          refine ⟨by simp [hlen], fun i hv hk => ?_⟩
          cases i with
          | zero => exact ⟨o, rfl, hf⟩
          | succ n =>
            exact hord n (by simpa using hv) (by simpa using hk)
    | null => simp [jwksOfList] at h
    | bool b => simp [jwksOfList] at h
    | num n => simp [jwksOfList] at h
    | str t => simp [jwksOfList] at h
    | arr es => simp [jwksOfList] at h

/-- C5: `JwkSet::from_map` succeeds exactly when the map has a `keys` entry
that is an array whose every element is a JSON object accepted by
`Jwk::from_map`; on success the set's keys are those JWKs in the array's
order (an empty array yields an empty set) and the remaining top-level
parameters are preserved with `keys` removed. -/
theorem C5_jwk_set_from_map (map : JMap) :
    ((∃ s, JwkSet.fromMap map = .ok s) ↔
      (∃ vals, mapGet map kKeys = some (Json.arr vals) ∧
        ∀ v ∈ vals, ∃ o j, v = Json.obj o ∧ Jwk.fromMap o = .ok j)) ∧
    (∀ s, JwkSet.fromMap map = .ok s →
      ∃ vals, mapGet map kKeys = some (Json.arr vals) ∧
        s.params = mapRemove map kKeys ∧
        s.keys.length = vals.length ∧
        ∀ i (hv : i < vals.length) (hk : i < s.keys.length),
          ∃ o, vals.get ⟨i, hv⟩ = Json.obj o ∧
            Jwk.fromMap o = .ok (s.keys.get ⟨i, hk⟩)) := by
  constructor
  · constructor
    · rintro ⟨s, hs⟩
      unfold JwkSet.fromMap at hs
      split at hs
      next vals hm =>
        cases hl : jwksOfList vals with
        | error e => rw [hl] at hs; cases hs
        | ok ks => exact ⟨vals, hm, (jwksOfList_ok_iff vals).mp ⟨ks, hl⟩⟩
      all_goals cases hs
    · rintro ⟨vals, hm, hall⟩
      obtain ⟨ks, hks⟩ := (jwksOfList_ok_iff vals).mpr hall
      exact ⟨⟨ks, mapRemove map kKeys⟩, by simp [JwkSet.fromMap, hm, hks]⟩
  · intro s hs
    unfold JwkSet.fromMap at hs
    split at hs
    next vals hm =>
      cases hl : jwksOfList vals with
      | error e => rw [hl] at hs; cases hs
      | ok ks =>
        rw [hl] at hs
        injection hs with h2
        subst h2
        obtain ⟨hlen, hord⟩ := jwksOfList_ok_shape vals ks hl
        exact ⟨vals, hm, rfl, hlen, hord⟩
    all_goals cases hs

theorem C5_jwk_set_from_map_witness :
    JwkSet.fromMap [(kKeys, Json.arr [])] = .ok ⟨[], []⟩ ∧
    (∃ vals, mapGet [(kKeys, Json.arr [])] kKeys = some (Json.arr vals) ∧
      (⟨[], []⟩ : JwkSet).params = mapRemove [(kKeys, Json.arr [])] kKeys ∧
      (⟨[], []⟩ : JwkSet).keys.length = vals.length ∧
      ∀ i (hv : i < vals.length) (hk : i < (⟨[], []⟩ : JwkSet).keys.length),
        ∃ o, vals.get ⟨i, hv⟩ = Json.obj o ∧
          Jwk.fromMap o = .ok ((⟨[], []⟩ : JwkSet).keys.get ⟨i, hk⟩)) :=
  ⟨rfl, (C5_jwk_set_from_map [(kKeys, Json.arr [])]).2 ⟨[], []⟩ rfl⟩

/-! ### C3: the unsecured encode/decode round trip -/

theorem mapKeys_mapInsert_subset {m : JMap} {k k2 : JStr} {v : Json}
    (h : k2 ∈ mapKeys (mapInsert m k v)) : k2 ∈ mapKeys m ∨ k2 = k := by
  induction m with
  | nil =>
    simp [mapInsert, mapKeys] at h
    simp [h]
  | cons e rest ih =>
    obtain ⟨k3, v3⟩ := e
    by_cases hk : k3 = k
    · simp only [mapInsert, if_pos hk, mapKeys, List.map_cons,
        List.mem_cons] at h ⊢
      exact Or.inl h
    · simp only [mapInsert, if_neg hk, mapKeys, List.map_cons,
        List.mem_cons] at h ⊢
      rcases h with rfl | h
      · exact Or.inl (Or.inl rfl)
      · rcases ih h with h2 | h2
        · exact Or.inl (Or.inr h2)
        · exact Or.inr h2

theorem nodup_mapKeys_mapInsert {m : JMap} (k : JStr) (v : Json)
    (h : (mapKeys m).Nodup) : (mapKeys (mapInsert m k v)).Nodup := by
  induction m with
  | nil => simp [mapInsert, mapKeys]
  | cons e rest ih =>
    obtain ⟨k3, v3⟩ := e
    simp only [mapKeys, List.map_cons, List.nodup_cons] at h
    by_cases hk : k3 = k
    · simp only [mapInsert, if_pos hk, mapKeys, List.map_cons,
        List.nodup_cons]
      exact ⟨h.1, h.2⟩
    · simp only [mapInsert, if_neg hk, mapKeys, List.map_cons,
        List.nodup_cons]
      refine ⟨?_, ih h.2⟩
      intro hmem
      rcases mapKeys_mapInsert_subset hmem with h2 | h2
      · exact h.1 h2
      · exact hk h2

theorem jsonEntriesWf_mapInsert {m : JMap} {k : JStr} {v : Json}
    (hm : jsonEntriesWf m = true) (hk : strWf k = true)
    (hv : jsonWf v = true) : jsonEntriesWf (mapInsert m k v) = true := by
  induction m with
  | nil => simp [mapInsert, jsonEntriesWf, hk, hv]
  | cons e rest ih =>
    obtain ⟨k3, v3⟩ := e
    simp only [jsonEntriesWf, Bool.and_eq_true] at hm
    by_cases hk3 : k3 = k
    · subst hk3
      simp [mapInsert, jsonEntriesWf, hm.1.1, hv, hm.2]
    · simp [mapInsert, hk3, jsonEntriesWf, hm.1.1, hm.1.2, ih hm.2]

theorem mapWf_mapInsert {m : JMap} {k : JStr} {v : Json}
    (hm : mapWf m = true) (hk : strWf k = true) (hv : jsonWf v = true) :
    mapWf (mapInsert m k v) = true := by
  simp only [mapWf, jsonWf, Bool.and_eq_true, decide_eq_true_eq] at hm ⊢
  exact ⟨jsonEntriesWf_mapInsert hm.1 hk hv, nodup_mapKeys_mapInsert k v hm.2⟩

theorem all_mapInsert {P : JStr × Json → Bool} {m : JMap} {k : JStr}
    {v : Json} (hm : m.all P = true) (hv : P (k, v) = true) :
    (mapInsert m k v).all P = true := by
  rw [List.all_eq_true] at hm ⊢
  intro x hx
  obtain ⟨k2, v2⟩ := x
  rcases mem_mapInsert_of_mem hx with h2 | ⟨rfl, rfl⟩
  · exact hm _ h2
  · exact hv

theorem C3_counterexample_kid_header :
    decodeUnsecured (encodeUnsecured ⟨[]⟩ ⟨[(kKid, Json.str [97])]⟩) =
      .error .invalidJwtFormat := by
  have hwH : mapWf
      (mapInsert [(kKid, Json.str [97])] kAlg (Json.str sNone)) = true := by
    decide
  have hltH : ∀ b ∈ serJson
      (.obj (mapInsert [(kKid, Json.str [97])] kAlg (Json.str sNone))),
      b < 256 := serJson_lt _ hwH
  have hltP : ∀ b ∈ serJson (.obj ([] : JMap)), b < 256 :=
    serJson_lt _ (by decide)
  have hnA := b64Encode_no_dot _ hltH
  have hnB := b64Encode_no_dot _ hltP
  have hsp : splitByte 46 (encodeUnsecured ⟨[]⟩ ⟨[(kKid, Json.str [97])]⟩) =
      [b64Encode (serJson
        (.obj (mapInsert [(kKid, Json.str [97])] kAlg (Json.str sNone)))),
       b64Encode (serJson (.obj ([] : JMap))), []] := by
    show splitByte 46
        (b64Encode (serJson
          (.obj (mapInsert [(kKid, Json.str [97])] kAlg (Json.str sNone))))
          ++ 46 :: (b64Encode (serJson (.obj ([] : JMap))) ++ [46])) = _
    rw [splitByte_append_delim 46 _ _ hnA, splitByte_append_delim 46 _ _ hnB]
    rfl
  have hdA := b64Decode_b64Encode _ hltH
  have hpA := jsonParseMap_serJson _ hwH
  have hga : mapGet (mapInsert [(kKid, Json.str [97])] kAlg (Json.str sNone))
      kAlg = some (Json.str sNone) := by decide
  have hgk : mapGet (mapInsert [(kKid, Json.str [97])] kAlg (Json.str sNone))
      kKid = some (Json.str [97]) := by decide
  unfold decodeUnsecured
  rw [hsp]
  simp [hdA, hpA, hga, hgk]

/-- C3 (amended): when the header carries no `kid` entry and both maps are
well-formed and pass the registered-parameter typing, `encode_unsecured`
produces three dot-separated segments with an empty third and
`decode_unsecured` recovers the payload and the header with `alg` set to
`"none"`.  (Without the `kid` restriction the round trip fails:
`decode_unsecured` rejects any header holding `kid` alongside `alg=none`.) -/
theorem C3_encode_decode_unsecured (p : JwtPayload) (h : JwsHeader)
    (hwp : mapWf p.claimsSet = true)
    (hwh : mapWf h.claimsSet = true)
    (hp : p.claimsSet.all (fun e => jwtClaimOk e.1 e.2) = true)
    (hh : h.claimsSet.all (fun e => jwsHeaderParamOk e.1 e.2) = true)
    (hkid : mapGet h.claimsSet kKid = none) :
    (∃ s0 s1, splitByte 46 (encodeUnsecured p h) = [s0, s1, []]) ∧
    decodeUnsecured (encodeUnsecured p h) =
      .ok (p, ⟨mapInsert h.claimsSet kAlg (Json.str sNone)⟩) := by
  have hwH : mapWf (mapInsert h.claimsSet kAlg (Json.str sNone)) = true :=
    mapWf_mapInsert hwh (by decide) (by decide)
  have hltH : ∀ b ∈ serJson
      (.obj (mapInsert h.claimsSet kAlg (Json.str sNone))), b < 256 :=
    serJson_lt _ hwH
  have hltP : ∀ b ∈ serJson (.obj p.claimsSet), b < 256 := serJson_lt _ hwp
  have hnA : ∀ c ∈ b64Encode
      (serJson (.obj (mapInsert h.claimsSet kAlg (Json.str sNone)))),
      c ≠ 46 := b64Encode_no_dot _ hltH
  have hnB : ∀ c ∈ b64Encode (serJson (.obj p.claimsSet)), c ≠ 46 :=
    b64Encode_no_dot _ hltP
  have hsp : splitByte 46 (encodeUnsecured p h) =
      [b64Encode (serJson (.obj (mapInsert h.claimsSet kAlg (Json.str sNone)))),
       b64Encode (serJson (.obj p.claimsSet)), []] := by
    show splitByte 46
        (b64Encode (serJson (.obj (mapInsert h.claimsSet kAlg (Json.str sNone))))
          ++ 46 :: (b64Encode (serJson (.obj p.claimsSet)) ++ [46])) = _
    rw [splitByte_append_delim 46 _ _ hnA, splitByte_append_delim 46 _ _ hnB]
    rfl
  have hdA : b64Decode (b64Encode
      (serJson (.obj (mapInsert h.claimsSet kAlg (Json.str sNone))))) =
      some (serJson (.obj (mapInsert h.claimsSet kAlg (Json.str sNone)))) :=
    b64Decode_b64Encode _ hltH
  have hpA : jsonParseMap
      (serJson (.obj (mapInsert h.claimsSet kAlg (Json.str sNone)))) =
      some (mapInsert h.claimsSet kAlg (Json.str sNone)) :=
    jsonParseMap_serJson _ hwH
  have hga : mapGet (mapInsert h.claimsSet kAlg (Json.str sNone)) kAlg =
      some (Json.str sNone) := mapGet_mapInsert_self _ _ _
  have hgk : mapGet (mapInsert h.claimsSet kAlg (Json.str sNone)) kKid =
      none := by
    rw [mapGet_mapInsert_ne _ _ _ _ (by decide)]
    exact hkid
  have hfH : JwsHeader.fromMap (mapInsert h.claimsSet kAlg (Json.str sNone)) =
      .ok ⟨mapInsert h.claimsSet kAlg (Json.str sNone)⟩ := by
    unfold JwsHeader.fromMap
    rw [if_pos (all_mapInsert hh (by decide))]
  have hdB : b64Decode (b64Encode (serJson (.obj p.claimsSet))) =
      some (serJson (.obj p.claimsSet)) := b64Decode_b64Encode _ hltP
  have hpB : jsonParseMap (serJson (.obj p.claimsSet)) = some p.claimsSet :=
    jsonParseMap_serJson _ hwp
  have hfP : JwtPayload.fromMap p.claimsSet = .ok p := by
    unfold JwtPayload.fromMap
    rw [if_pos hp]
  refine ⟨⟨_, _, hsp⟩, ?_⟩
  unfold decodeUnsecured
  rw [hsp]
  simp [hdA, hpA, hga, hgk, hfH, hdB, hpB, hfP]

theorem C3_encode_decode_unsecured_witness :
    mapWf ([] : JMap) = true ∧
    mapGet ([] : JMap) kKid = none ∧
    decodeUnsecured (encodeUnsecured ⟨[]⟩ ⟨[]⟩) =
      .ok (⟨[]⟩, ⟨mapInsert [] kAlg (Json.str sNone)⟩) :=
  ⟨rfl, rfl,
   (C3_encode_decode_unsecured ⟨[]⟩ ⟨[]⟩ rfl rfl rfl rfl rfl).2⟩

end Josekit
